import Mathlib

/-!
Verification development for the Highlighter browser extension.

The core of the program is a text anchoring and restoration engine over the
DOM: a selection is encoded into a durable anchor (structural path, offsets,
quote, context), later resolved back to a live text range by a three-tier
fallback strategy, and rendered by wrapping the range in a marker span.
Storage keeps per-page records of anchors keyed by a normalized URL.

Texts are modelled as lists of characters (JavaScript strings), the DOM as a
tree of text nodes and element nodes, and node references as child-index
paths from the body root.  Every definition mirrors the corresponding
function of the source (`content.js`, `background.js`, `helpers.js`); the
only modelled platform primitives are the DOM operations the source calls
(`Range`, `TreeWalker`, `querySelector`, `normalize`, the `URL` parser),
each documented at its definition.
-/

set_option maxHeartbeats 1000000

namespace Highlighter

/-- JavaScript `s.substring(a, b)` for `a ≤ b` (both clamped to the length):
the characters of `s` at positions `a, …, b-1`. -/
def slice (s : List Char) (a b : Nat) : List Char :=
  (s.take b).drop a

/-- Whitespace test used by JavaScript `String.prototype.trim` (restricted to
the common ASCII whitespace characters). -/
def isWS (c : Char) : Bool :=
  c == ' ' || c == '\t' || c == '\n' || c == '\r'

/-- JavaScript `s.trim()`: strip leading and trailing whitespace. -/
def trimStr (s : List Char) : List Char :=
  ((s.dropWhile isWS).reverse.dropWhile isWS).reverse

/-- JavaScript `s.indexOf(q)`: position of the first occurrence of `q` as a
substring of `s`, or `none` (JS: `-1`). -/
def indexOfList (s q : List Char) : Option Nat :=
  if q.isPrefixOf s then some 0
  else
    match s with
    | [] => none
    | _ :: s' => (indexOfList s' q).map (· + 1)

/-- All start positions of occurrences of `q` as a substring of `s`, in
ascending order.  This is the list of indices produced by the source's
`while ((index = text.indexOf(quote, searchStart)) !== -1)` loop, which
advances `searchStart` to `index + 1` and therefore enumerates every
occurrence once, in ascending order. -/
def occIdxs (s q : List Char) : List Nat :=
  (if q.isPrefixOf s then [0] else []) ++
    match s with
    | [] => []
    | _ :: s' => (occIdxs s' q).map (· + 1)

theorem indexOfList_eq_head_occIdxs (s q : List Char) :
    indexOfList s q = (occIdxs s q).head? := by
  induction s with
  | nil =>
    by_cases h : q.isPrefixOf [] <;> simp [indexOfList, occIdxs, h]
  | cons c s' ih =>
    by_cases h : q.isPrefixOf (c :: s') <;>
      simp [indexOfList, occIdxs, h, ih, Option.map, List.head?_map]

theorem mem_occIdxs {s q : List Char} (hq : q ≠ []) {i : Nat} :
    i ∈ occIdxs s q ↔ q.isPrefixOf (s.drop i) := by
  induction s generalizing i with
  | nil =>
    have h : q.isPrefixOf ([] : List Char) = false := by
      cases q with
      | nil => exact absurd rfl hq
      | cons a t => rfl
    cases i <;> simp [occIdxs, h]
  | cons c s' ih =>
    by_cases h : q.isPrefixOf (c :: s')
    · cases i with
      | zero => simp [occIdxs, h]
      | succ n => simp [occIdxs, h, ih]
    · cases i with
      | zero => simp [occIdxs, h]
      | succ n => simp [occIdxs, h, ih]

/-! ## The DOM model

A document is a tree of text nodes and element nodes, rooted at the `body`
element.  The only element attribute the engine reads or writes is the
highlight marker attribute `data-hl-id` (set by `createHighlightSpan`,
queried by `querySelector`), so elements carry a tag name, an optional
highlight id and a list of children.  A node reference is the list of child
indices from the root. -/

inductive DNode where
  | text (s : List Char)
  | elem (tag : String) (hlId : Option String) (children : List DNode)

/-- Combined structural induction for `DNode` and `List DNode`. -/
theorem DNode.indPair (P : DNode → Prop) (Q : List DNode → Prop)
    (ht : ∀ s, P (.text s))
    (he : ∀ t a cs, Q cs → P (.elem t a cs))
    (hn : Q [])
    (hc : ∀ c cs, P c → Q cs → Q (c :: cs)) :
    (∀ n, P n) ∧ (∀ cs, Q cs) :=
  have h1 : ∀ n, P n := fun n => DNode.rec ht he hn hc n
  ⟨h1, fun cs => List.rec hn (fun c cs' ih => hc c cs' (h1 c) ih) cs⟩

mutual
/-- `node.textContent`: the concatenated text of all text nodes below `n`. -/
def textContent : DNode → List Char
  | .text s => s
  | .elem _ _ cs => textContentL cs

def textContentL : List DNode → List Char
  | [] => []
  | c :: rest => textContent c ++ textContentL rest
end

theorem textContentL_eq_flatten (cs : List DNode) :
    textContentL cs = (cs.map textContent).flatten := by
  induction cs with
  | nil => rfl
  | cons c rest ih => simp [textContentL, ih]

mutual
/-- The `document.createTreeWalker(root, NodeFilter.SHOW_TEXT)` traversal:
all text nodes below `root` in document (depth-first, pre-) order, each with
the child-index path that addresses it relative to `root`. -/
def textsOf : DNode → List (List Nat × List Char)
  | .text s => [([], s)]
  | .elem _ _ cs => textsOfL cs 0

def textsOfL : List DNode → Nat → List (List Nat × List Char)
  | [], _ => []
  | c :: rest, k =>
      (textsOf c).map (fun ps => (k :: ps.1, ps.2)) ++ textsOfL rest (k + 1)
end

mutual
/-- The number of highlight marker elements carrying id `i` below `n`
(an element matches the CSS selector `[data-hl-id="i"]` iff its `hlId`
attribute is `some i`). -/
def countWrappers : DNode → String → Nat
  | .text _, _ => 0
  | .elem _ a cs, i => (if a = some i then 1 else 0) + countWrappersL cs i

def countWrappersL : List DNode → String → Nat
  | [], _ => 0
  | c :: rest, i => countWrappers c i + countWrappersL rest i
end

mutual
/-- `document.querySelector('[data-hl-id="i"]')`: the path of the first
element in document order whose `data-hl-id` attribute equals `i`, or
`none`. -/
def findWrapper : DNode → String → Option (List Nat)
  | .text _, _ => none
  | .elem _ a cs, i =>
      if a = some i then some []
      else (findWrapperL cs i).map (fun kp => kp.1 :: kp.2)

def findWrapperL : List DNode → String → Option (Nat × List Nat)
  | [], _ => none
  | c :: rest, i =>
      match findWrapper c i with
      | some p => some (0, p)
      | none => (findWrapperL rest i).map (fun kp => (kp.1 + 1, kp.2))
end

/-- `document.querySelector('[data-hl-id="i"]') !== null`, expressed through
the wrapper count. -/
def hasWrapper (n : DNode) (i : String) : Bool :=
  decide (0 < countWrappers n i)

/-- The child list of a node (`[]` for a text node). -/
def childrenOf : DNode → List DNode
  | .text _ => []
  | .elem _ _ cs => cs

/-- The node addressed by a child-index path. -/
def nodeAt (n : DNode) : List Nat → Option DNode
  | [] => some n
  | i :: rest =>
      match n with
      | .text _ => none
      | .elem _ _ cs =>
          match cs[i]? with
          | some c => nodeAt c rest
          | none => none

/-- Replace the node addressed by a (non-empty) path with a list of sibling
nodes, splicing them into the parent's child list in place. -/
def spliceAt (n : DNode) : List Nat → List DNode → Option DNode
  | [], _ => none
  | [i], repl =>
      match n with
      | .text _ => none
      | .elem t a cs =>
          if i < cs.length then
            some (.elem t a (cs.take i ++ repl ++ cs.drop (i + 1)))
          else none
  | i :: j :: rest, repl =>
      match n with
      | .text _ => none
      | .elem t a cs =>
          match cs[i]? with
          | some c => (spliceAt c (j :: rest) repl).map (fun c' => .elem t a (cs.set i c'))
          | none => none

/-- Apply a function to the node addressed by a path, in place. -/
def updateAt (n : DNode) : List Nat → (DNode → DNode) → Option DNode
  | [], f => some (f n)
  | i :: rest, f =>
      match n with
      | .text _ => none
      | .elem t a cs =>
          match cs[i]? with
          | some c => (updateAt c rest f).map (fun c' => .elem t a (cs.set i c'))
          | none => none

/-- `Node.normalize()` on a child list: remove empty text nodes, merge runs
of adjacent text nodes into single text nodes, and recurse into element
children. -/
def normChildren : List DNode → List DNode
  | [] => []
  | .text s :: rest =>
      match normChildren rest with
      | .text s2 :: r => if s ++ s2 = [] then r else .text (s ++ s2) :: r
      | r => if s = [] then r else .text s :: r
  | .elem t a cs :: rest => .elem t a (normChildren cs) :: normChildren rest

/-- `node.normalize()`. -/
def normalizeNode : DNode → DNode
  | .text s => .text s
  | .elem t a cs => .elem t a (normChildren cs)

/-! ## The structural path (XPath) codec

The source serializes the path as a string `/body/div[2]/p/text()[1]` and
re-evaluates it with `document.evaluate`.  The model keeps the path in
parsed form: one `(tag, k)` step per element level, `k` being the 1-based
position among same-tag element siblings (the source omits `[k]` in the
string when the element is the only one of its tag, which `document.evaluate`
reads back as `[1]`; the model always stores the number, which is `1` in
exactly that case), plus the 1-based position of the text node among the
text-node children of the final element. -/

structure StructPath where
  steps : List (String × Nat)
  textIdx : Nat
deriving DecidableEq, Repr

def tagOf : DNode → Option String
  | .text _ => none
  | .elem t _ _ => some t

def isTextNode : DNode → Bool
  | .text _ => true
  | .elem _ _ _ => false

/-- The step list recorded by `getElementXPath` for the element addressed by
`p` (the source walks ancestors bottom-up; the model walks the same spine
top-down): at each level the child's tag together with its 1-based index
among element siblings of the same tag. -/
def stepsFor (n : DNode) : List Nat → Option (List (String × Nat))
  | [] => some []
  | i :: rest =>
      match n with
      | .text _ => none
      | .elem _ _ cs =>
          match cs[i]? with
          | some c =>
              match tagOf c with
              | some t =>
                  let k := 1 + (cs.take i).countP (fun d => tagOf d == some t)
                  (stepsFor c rest).map (fun st => (t, k) :: st)
              | none => none
          | none => none

/-- `getTextNodeXPath`: the structural path of the text node addressed by
`p` — the parent element's step list plus the text node's 1-based position
among the parent's text-node children. -/
def getTextNodeXPath (doc : DNode) (p : List Nat) : Option StructPath :=
  match p.getLast?, nodeAt doc p with
  | some j, some (.text _) =>
      match nodeAt doc p.dropLast, stepsFor doc p.dropLast with
      | some (.elem _ _ cs), some st =>
          some ⟨st, 1 + (cs.take j).countP isTextNode⟩
      | _, _ => none
  | _, _ => none

/-- The `k`-th (1-based) element child with tag `t`, with its child index —
how `document.evaluate` resolves one `tag[k]` step. -/
def findTagChild (cs : List DNode) (t : String) (k : Nat) : Option (Nat × DNode) :=
  ((cs.enum).filter (fun ic => tagOf ic.2 == some t))[k - 1]?

/-- Resolve the element steps of a structural path from the body root,
returning the element reached and its child-index path. -/
def decodeSteps (n : DNode) : List (String × Nat) → Option (List Nat × DNode)
  | [] => some ([], n)
  | (t, k) :: rest =>
      match n with
      | .text _ => none
      | .elem _ _ cs =>
          match findTagChild cs t k with
          | some (i, c) => (decodeSteps c rest).map (fun pr => (i :: pr.1, pr.2))
          | none => none

/-- The text-node children of a child list, with their child indices. -/
def textChildrenIdx (cs : List DNode) : List (Nat × List Char) :=
  (cs.enum).filterMap (fun ic =>
    match ic.2 with
    | .text s => some (ic.1, s)
    | .elem _ _ _ => none)

/-- A fully decoded structural path: the owning element (path and node) and
the addressed text node (child index and content). -/
structure Decoded where
  parentPath : List Nat
  parentNode : DNode
  childIdx : Nat
  txt : List Char

/-- `getTextNodeByXPath`: decode a structural path to its text node, `none`
when any step fails to resolve (the "structural path stale" signal). -/
def decodeTextPath (doc : DNode) (sp : StructPath) : Option Decoded :=
  match decodeSteps doc sp.steps with
  | some (pp, parent) =>
      match (textChildrenIdx (childrenOf parent))[sp.textIdx - 1]? with
      | some (j, s) => some ⟨pp, parent, j, s⟩
      | none => none
  | none => none

/-! ## The Locator Codec: `getSelectionInfo` -/

/-- `CONTEXT_SIZE`: characters of prefix/suffix context captured around the
selection. -/
def CONTEXT_SIZE : Nat := 30

/-- A live selection (`window.getSelection().getRangeAt(0)`): the start and
end containers as child-index paths from the body root, and the two offsets
(character offsets for text containers, child offsets for element
containers). -/
structure Sel where
  startPath : List Nat
  startOffset : Nat
  endPath : List Nat
  endOffset : Nat
deriving DecidableEq, Repr

/-- Strict document order on node paths (pre-order: an ancestor precedes its
descendants). -/
def lexLt : List Nat → List Nat → Bool
  | [], [] => false
  | [], _ :: _ => true
  | _ :: _, [] => false
  | a :: as, b :: bs => a < b || (a == b && lexLt as bs)

/-- The global character position of a range boundary inside the document's
concatenated text. -/
def gpos (doc : DNode) (p : List Nat) (off : Nat) : Nat :=
  match nodeAt doc p with
  | some (.text _) =>
      (((textsOf doc).filter (fun ps => lexLt ps.1 p)).map
        (fun ps => ps.2.length)).sum + off
  | _ =>
      (((textsOf doc).filter (fun ps => lexLt ps.1 (p ++ [off]))).map
        (fun ps => ps.2.length)).sum

/-- `selection.toString()` for the modelled range: for a range inside one
text node, the characters between the two offsets; otherwise the document's
concatenated text between the two boundary positions. -/
def selText (doc : DNode) (sel : Sel) : List Char :=
  if sel.startPath = sel.endPath then
    match nodeAt doc sel.startPath with
    | some (.text s) => slice s sel.startOffset sel.endOffset
    | _ =>
        slice (textContent doc) (gpos doc sel.startPath sel.startOffset)
          (gpos doc sel.endPath sel.endOffset)
  else
    slice (textContent doc) (gpos doc sel.startPath sel.startOffset)
      (gpos doc sel.endPath sel.endOffset)

/-- `range.startContainer.parentNode === range.endContainer.parentNode`:
both containers are proper descendants of the body root and drop to the same
parent path. -/
def sameParentB (p q : List Nat) : Bool :=
  !p.isEmpty && !q.isEmpty && p.dropLast == q.dropLast

def isTextAt (doc : DNode) (p : List Nat) : Bool :=
  match nodeAt doc p with
  | some (.text _) => true
  | _ => false

inductive SelErrKind where
  | multiNode
  | notTextNode
  | xpathFailed
deriving DecidableEq, Repr

/-- The fields of a successful `getSelectionInfo` result that are stored in
the anchor (the live `range` field is the selection itself). -/
structure SelInfo where
  quote : List Char
  xpath : StructPath
  startOffset : Nat
  endOffset : Nat
  pre : List Char
  suf : List Char
deriving DecidableEq, Repr

inductive SelRes where
  | noSel
  | selErr (e : SelErrKind) (text : List Char)
  | ok (info : SelInfo)
deriving DecidableEq, Repr

/-- `getSelectionInfo`: validate the selection and encode it.  Returns
`noSel` (JS `null`) when the trimmed selection text is empty, `multiNode`
when the containers differ and are not two text nodes under one parent,
`notTextNode` when the start container is not a text node, `xpathFailed`
when no structural path can be produced; otherwise the encoded fields, with
`quote` the trimmed selection text, the raw range offsets, and the context
snippets clamped to the owning text node's boundaries. -/
def getSelectionInfo (doc : DNode) (sel : Sel) : SelRes :=
  let text := trimStr (selText doc sel)
  if text = [] then .noSel
  else if sel.startPath != sel.endPath &&
      !(isTextAt doc sel.startPath && isTextAt doc sel.endPath &&
        sameParentB sel.startPath sel.endPath) then
    .selErr .multiNode text
  else
    match nodeAt doc sel.startPath with
    | some (.text s) =>
        match getTextNodeXPath doc sel.startPath with
        | some xp =>
            .ok ⟨text, xp, sel.startOffset, sel.endOffset,
                 slice s (sel.startOffset - CONTEXT_SIZE) sel.startOffset,
                 (s.drop sel.endOffset).take CONTEXT_SIZE⟩
        | none => .selErr .xpathFailed text
    | _ => .selErr .notTextNode text

/-! ## The Restoration Resolver: `tryRestoreHighlight`

The source's `tryRestoreHighlight` both finds the target range and wraps it.
The model separates the two: the resolver below returns the resolved range
(text node path plus offsets) and `applyHighlightToTextNode` performs the
DOM mutation. -/

/-- A stored anchor (`highlightData` in the source). -/
structure Item where
  id : String
  quote : List Char
  pre : List Char
  suf : List Char
  xpath : StructPath
  startOffset : Nat
  endOffset : Nat
  color : String
  note : List Char
  tags : List String
  createdAt : Nat
deriving DecidableEq, Repr

/-- A resolved live range: the path of the owning text node and the start
and end offsets within it. -/
structure RLoc where
  path : List Nat
  first : Nat
  stop : Nat
deriving DecidableEq, Repr

/-- Strategy 1 of `tryRestoreHighlight`: decode the structural path and
check that the text at `[startOffset, endOffset)` equals the quote. -/
def tier1 (doc : DNode) (item : Item) : Option RLoc :=
  match decodeTextPath doc item.xpath with
  | some d =>
      if slice d.txt item.startOffset item.endOffset = item.quote then
        some ⟨d.parentPath ++ [d.childIdx], item.startOffset, item.endOffset⟩
      else none
  | none => none

/-- `findQuoteInElement`: depth-first scan of the text nodes below `root`
for the first node containing `quote`, with the first index inside it. -/
def findQuoteInElement (root : DNode) (q : List Char) : Option (List Nat × Nat) :=
  if q = [] then none
  else (textsOf root).findSome? (fun ps => (indexOfList ps.2 q).map (fun i => (ps.1, i)))

/-- Strategy 2 of `tryRestoreHighlight`: when the structural path decodes,
search the decoded text node's parent subtree for the quote. -/
def tier2 (doc : DNode) (item : Item) : Option RLoc :=
  match decodeTextPath doc item.xpath with
  | some d =>
      (findQuoteInElement d.parentNode item.quote).map
        (fun pi => ⟨d.parentPath ++ pi.1, pi.2, pi.2 + item.quote.length⟩)
  | none => none

/-- JavaScript `hay.includes(needle)`: `needle` occurs somewhere inside
`hay`. -/
def includesSub (hay needle : List Char) : Bool :=
  needle.isPrefixOf hay ||
    match hay with
    | [] => false
    | _ :: t => includesSub t needle

/-- The context score `findQuoteWithContext` computes for an occurrence of
`q` at index `i` of a node text `s`: base 1; plus 2 when the
`pre.length` characters before the occurrence (when they exist inside the
node and `pre` is non-empty) equal `pre` exactly, else plus 1 when they
contain the last 10 characters of `pre`; symmetrically for `suf` against the
`suf.length` characters after the occurrence. -/
def scoreAt (s q pre suf : List Char) (i : Nat) : Nat :=
  1 +
  (if pre ≠ [] ∧ pre.length ≤ i then
     (if slice s (i - pre.length) i = pre then 2
      else if includesSub (slice s (i - pre.length) i) (pre.drop (pre.length - 10)) then 1
      else 0)
   else 0) +
  (if suf ≠ [] ∧ i + q.length + suf.length ≤ s.length then
     (if slice s (i + q.length) (i + q.length + suf.length) = suf then 2
      else if includesSub (slice s (i + q.length) (i + q.length + suf.length)) (suf.take 10) then 1
      else 0)
   else 0)

/-- One update of `findQuoteWithContext`'s running best match: keep the new
occurrence exactly when its score strictly beats the best score so far
(initially 0). -/
def bestStep (q pre suf : List Char)
    (b : Option (RLoc × Nat)) (pt : List Nat × List Char × Nat) : Option (RLoc × Nat) :=
  let sc := scoreAt pt.2.1 q pre suf pt.2.2
  match b with
  | none => if 0 < sc then some (⟨pt.1, pt.2.2, pt.2.2 + q.length⟩, sc) else none
  | some (bl, bs) =>
      if bs < sc then some (⟨pt.1, pt.2.2, pt.2.2 + q.length⟩, sc) else some (bl, bs)

/-- Every occurrence of `q` in the document: all text nodes in document
order, and inside each node all occurrence indices in ascending order —
the iteration order of `findQuoteWithContext`'s two nested loops. -/
def allOccs (root : DNode) (q : List Char) : List (List Nat × List Char × Nat) :=
  (textsOf root).flatMap (fun ps => (occIdxs ps.2 q).map (fun i => (ps.1, ps.2, i)))

/-- Strategy 3, `findQuoteWithContext`: scan every text node of the document
for occurrences of the quote, score each against the stored context, and
keep the first strictly-best-scoring occurrence. -/
def findQuoteWithContext (doc : DNode) (q pre suf : List Char) : Option RLoc :=
  if q = [] then none
  else
    ((textsOf doc).foldl
      (fun b ps => (occIdxs ps.2 q).foldl
        (fun b' i => bestStep q pre suf b' (ps.1, ps.2, i)) b)
      none).map Prod.fst

/-- `tryRestoreHighlight`, resolution part: the three strategies in order,
first success wins. -/
def tryRestoreHighlight (doc : DNode) (item : Item) : Option RLoc :=
  match tier1 doc item with
  | some l => some l
  | none =>
      match tier2 doc item with
      | some l => some l
      | none => findQuoteWithContext doc item.quote item.pre item.suf

/-! ## The Mark Renderer -/

/-- `applyHighlightToTextNode`: `range.surroundContents(span)` on a range
inside one text node — split the text node at the two offsets and wrap the
middle part in a fresh marker span carrying the anchor id (the two outer
parts stay as text nodes, possibly empty, exactly as `splitText` leaves
them).  `none` models the `try/catch` returning `false` on invalid
offsets. -/
def applyHighlightToTextNode (doc : DNode) (loc : RLoc) (item : Item) : Option DNode :=
  match nodeAt doc loc.path with
  | some (.text s) =>
      if loc.first ≤ loc.stop ∧ loc.stop ≤ s.length then
        spliceAt doc loc.path
          [.text (s.take loc.first),
           .elem "span" (some item.id) [.text (slice s loc.first loc.stop)],
           .text (s.drop loc.stop)]
      else none
  | _ => none

/-- `removeHighlightSpan`: find the live marker for the id, splice its
children into the parent in place, remove the marker, and `normalize()` the
parent to merge the now-adjacent text fragments.  `none` models the `false`
return when no marker exists. -/
def removeHighlightSpan (doc : DNode) (i : String) : Option DNode :=
  match findWrapper doc i with
  | none => none
  | some p =>
      match nodeAt doc p with
      | some (.elem _ _ spanChildren) =>
          (spliceAt doc p spanChildren).bind
            (fun d => updateAt d p.dropLast normalizeNode)
      | _ => none

/-- One step of `restoreHighlights`: skip the item when a marker with its id
is already live in the document; otherwise resolve it and wrap the resolved
range; on resolution or wrapping failure the document is unchanged (the
source only logs a warning). -/
def restoreOne (doc : DNode) (item : Item) : DNode :=
  if hasWrapper doc item.id then doc
  else
    match tryRestoreHighlight doc item with
    | some loc =>
        match applyHighlightToTextNode doc loc item with
        | some d => d
        | none => doc
    | none => doc

/-- `restoreHighlights`: the restore pass over the stored anchor list, in
stored order. -/
def restorePass (doc : DNode) (items : List Item) : DNode :=
  items.foldl restoreOne doc

/-! ## URL normalization (`normalizeUrl` in helpers.js and background.js)

The source calls the platform's WHATWG `URL` constructor.  The model
implements the constructor for absolute URLs: special-scheme hierarchical
URLs (`http`, `https`, `ws`, `wss`, `ftp`, with the parser's forgiveness
for missing or extra slashes after the colon, lowercased scheme and host,
and the port dropped from the origin when empty or scheme-default),
non-special hierarchical URLs `scheme://...` (whose origin serializes as
`null`), and opaque-path URLs `scheme:path` including `blob:`, whose
origin is the origin of the URL parsed from its path.  Inputs outside the
modelled shapes are mapped to `none` (the constructor throwing); this
restriction covers userinfo, percent-encoding, non-ASCII hosts,
leading-zero ports, `file:`, dot segments, nested `blob:`, and characters
the serializer does not keep verbatim. -/

/-- ASCII alphabetic. -/
def isAlphaC (c : Char) : Bool :=
  (65 ≤ c.toNat && c.toNat ≤ 90) || (97 ≤ c.toNat && c.toNat ≤ 122)

/-- ASCII digit. -/
def isDigitC (c : Char) : Bool :=
  48 ≤ c.toNat && c.toNat ≤ 57

/-- Scheme characters after the first: letters, digits, `+`, `-`, `.`. -/
def isSchemeC (c : Char) : Bool :=
  isAlphaC c || isDigitC c || c == '+' || c == '-' || c == '.'

/-- Host characters the model admits (hosts outside are not modelled). -/
def isHostC (c : Char) : Bool :=
  isAlphaC c || isDigitC c || c == '-' || c == '.' || c == '_'

/-- Path characters the model admits: ones the real parser serializes
verbatim (no percent-encoding, no backslash conversion). -/
def isPathC (c : Char) : Bool :=
  isAlphaC c || isDigitC c || c == '/' || c == '.' || c == '-' || c == '_' ||
  c == '~' || c == ':' || c == ',' || c == '@'

/-- Slash or backslash (skipped after the colon of a special scheme). -/
def isSlashy (c : Char) : Bool := c == '/' || c == '\\'

/-- Characters that terminate a non-special authority (`/ ? #`). -/
def notSepC (c : Char) : Bool :=
  !(c == '/') && !(c == '?') && !(c == '#')

/-- Characters that terminate a special-scheme authority (`/ ? # \`). -/
def notAuthEnd (c : Char) : Bool :=
  notSepC c && !(c == '\\')

/-- Characters that terminate the pathname. -/
def notQH (c : Char) : Bool :=
  !(c == '?') && !(c == '#')

def lowerL (s : List Char) : List Char := s.map Char.toLower

/-- The schemes the URL standard calls special and parses with the
hierarchical authority state (`file`, also special, has its own parse
states and stays outside the model). -/
def specialSchemes : List (List Char) :=
  ["http".toList, "https".toList, "ws".toList, "wss".toList, "ftp".toList]

def defaultPort (sch : List Char) : Nat :=
  if sch = "http".toList then 80
  else if sch = "https".toList then 443
  else if sch = "ws".toList then 80
  else if sch = "wss".toList then 443
  else 21

def digitsToNat (p : List Char) : Nat :=
  p.foldl (fun n c => n * 10 + (c.toNat - 48)) 0

/-- The `/`-separated segments of a path. -/
def segsOf : List Char → List (List Char)
  | [] => [[]]
  | c :: rest =>
      match segsOf rest with
      | s :: t => if c = '/' then [] :: s :: t else (c :: s) :: t
      | [] => [[c]]

/-- No `.` or `..` segment (the real parser resolves those away; paths
containing them are outside the model). -/
def noDotSeg (p : List Char) : Bool :=
  (segsOf p).all (fun seg => decide (seg ≠ ['.'] ∧ seg ≠ ['.', '.']))

structure UrlObj where
  origin : List Char
  pathname : List Char
deriving DecidableEq, Repr

/-- Scheme split: `[a-zA-Z][a-zA-Z0-9+.-]*` followed by `:`; the scheme is
lowercased and the remainder returned as-is. -/
def splitScheme (s : List Char) : Option (List Char × List Char) :=
  match s with
  | [] => none
  | c :: rest =>
      if isAlphaC c then
        match rest.dropWhile isSchemeC with
        | ':' :: after => some (lowerL (c :: rest.takeWhile isSchemeC), after)
        | _ => none
      else none

/-- Split an authority at the first `:` into lowercased host and port
digits; `none` when the host has unmodelled characters or the port is not
a plain decimal below 2^16 (the real parser throws on a non-digit or
overflowing port; it normalizes leading zeros away, so such ports are
outside the model).  An absent and an empty port both come back as `[]`,
which the origin serializer drops, as the real one does. -/
def authParts (auth : List Char) : Option (List Char × List Char) :=
  let host := auth.takeWhile (fun c => decide (c ≠ ':'))
  let pd := auth.drop (host.length + 1)
  if host.all isHostC && pd.all isDigitC && decide (digitsToNat pd < 65536) &&
     (decide (pd = []) || decide (pd.head? ≠ some '0') || decide (pd = ['0'])) then
    some (lowerL host, pd)
  else none

/-- Origin serialization of the port: dropped when empty or the scheme
default. -/
def portSer (sch pd : List Char) : List Char :=
  if pd = [] ∨ digitsToNat pd = defaultPort sch then [] else ':' :: pd

/-- Authority and path of a special-scheme URL: every slash or backslash
after `scheme:` is skipped, the authority runs to the first `/ ? # \`,
the host must be nonempty, and the pathname is the part up to `?`/`#`
(`/` when empty). -/
def parseSpecialHier (sch after : List Char) : Option UrlObj :=
  let rest := after.dropWhile isSlashy
  let auth := rest.takeWhile notAuthEnd
  let path := (rest.dropWhile notAuthEnd).takeWhile notQH
  (authParts auth).bind (fun a =>
    if a.1 ≠ [] ∧ path.all isPathC = true ∧ noDotSeg path = true then
      some ⟨sch ++ [':', '/', '/'] ++ a.1 ++ portSer sch a.2,
            if path = [] then ['/'] else path⟩
    else none)

/-- Authority and path of a non-special hierarchical URL `scheme://...`:
its origin serializes as `null` and its pathname may be empty. -/
def parseOtherHier (after2 : List Char) : Option UrlObj :=
  let path := (after2.dropWhile notSepC).takeWhile notQH
  (authParts (after2.takeWhile notSepC)).bind (fun _ =>
    if path.all isPathC = true ∧ noDotSeg path = true then
      some ⟨"null".toList, path⟩
    else none)

/-- The parse of a `blob:` URL's path, used only for its origin: special
hierarchical, non-special hierarchical, or opaque with a `null` origin. -/
def parseInner (s : List Char) : Option UrlObj :=
  (splitScheme s).bind (fun q =>
    if specialSchemes.contains q.1 then parseSpecialHier q.1 q.2
    else if q.2.take 2 = ['/', '/'] then parseOtherHier (q.2.drop 2)
    else if (q.2.takeWhile notQH).all isPathC then
      some ⟨"null".toList, q.2.takeWhile notQH⟩
    else none)

/-- An opaque-path URL `scheme:path` (non-special scheme, no `//`): the
path is kept verbatim up to `?`/`#` and the origin serializes as `null`,
except that a `blob:` URL takes the origin of the URL parsed from its
path (a nested `blob:` path is outside the model). -/
def parseOpaque (sch after : List Char) : Option UrlObj :=
  let path := after.takeWhile notQH
  if path.all isPathC then
    if sch = "blob".toList then
      if lowerL (path.take 5) = "blob:".toList then none
      else
        match parseInner path with
        | some v => some ⟨v.origin, path⟩
        | none => some ⟨"null".toList, path⟩
    else some ⟨"null".toList, path⟩
  else none

/-- Modelled platform primitive: `new URL(s)`, restricted as documented in
the section header. -/
def parseUrl (s : List Char) : Option UrlObj :=
  (splitScheme s).bind (fun q =>
    if q.1 = "file".toList then none
    else if specialSchemes.contains q.1 then parseSpecialHier q.1 q.2
    else if q.2.take 2 = ['/', '/'] then parseOtherHier (q.2.drop 2)
    else parseOpaque q.1 q.2)

/-- `normalizeUrl`: `new URL(url).origin + pathname`, the input itself when
the constructor throws. -/
def normalizeUrl (s : List Char) : List Char :=
  match parseUrl s with
  | some u => u.origin ++ u.pathname
  | none => s

/-! ## The storage layer (background.js)

`chrome.storage.local` holds one JavaScript object keyed by normalized URL;
the model is an association list with distinct keys, read with
`List.lookup`, written with `setRecord` (replace or append) and `delRecord`
(the `delete highlights[url]` statement). -/

structure PageRecord where
  title : List Char
  items : List Item
deriving DecidableEq, Repr

abbrev Store := List (List Char × PageRecord)

def setRecord : Store → List Char → PageRecord → Store
  | [], u, r => [(u, r)]
  | (k, v) :: rest, u, r =>
      if k = u then (u, r) :: rest else (k, v) :: setRecord rest u r

def delRecord : Store → List Char → Store
  | [], _ => []
  | (k, v) :: rest, u =>
      if k = u then delRecord rest u else (k, v) :: delRecord rest u

/-- `getHighlightsForUrl`: look up the normalized URL, defaulting to an
empty record. -/
def getHighlightsForUrl (st : Store) (url : List Char) : PageRecord :=
  match List.lookup (normalizeUrl url) st with
  | some r => r
  | none => ⟨[], []⟩

/-- `saveHighlightsForUrl`: store the record under the normalized URL, or
delete the entry entirely when the item list is empty. -/
def saveHighlightsForUrl (st : Store) (url title : List Char) (items : List Item) : Store :=
  let nu := normalizeUrl url
  if items = [] then delRecord st nu else setRecord st nu ⟨title, items⟩

/-- `addHighlight`. -/
def addHighlight (st : Store) (url title : List Char) (h : Item) : Store :=
  let pd := getHighlightsForUrl st url
  saveHighlightsForUrl st url (if title = [] then pd.title else title) (pd.items ++ [h])

/-- `removeHighlight`: drop the item with the given id and save (which
deletes the whole record when nothing remains). -/
def removeHighlight (st : Store) (url : List Char) (hid : String) : Store :=
  let pd := getHighlightsForUrl st url
  saveHighlightsForUrl st url pd.title (pd.items.filter (fun it => it.id != hid))

/-- The partial update objects sent by the UI surfaces; the only fields any
`CONTENT_UPDATE_HIGHLIGHT` / `POPUP_UPDATE_HIGHLIGHT` payload carries are
`color`, `note` and `tags`. -/
structure ItemUpdates where
  color : Option String
  note : Option (List Char)
  tags : Option (List String)
deriving DecidableEq, Repr

/-- JavaScript `{ ...item, ...updates }` for an update payload. -/
def applyUpdates (it : Item) (u : ItemUpdates) : Item :=
  { it with
    color := u.color.getD it.color
    note := u.note.getD it.note
    tags := u.tags.getD it.tags }

/-- `updateHighlight`: merge the supplied fields into the item with the
given id, when present. -/
def updateHighlight (st : Store) (url : List Char) (hid : String) (u : ItemUpdates) : Store :=
  let pd := getHighlightsForUrl st url
  match pd.items.findIdx? (fun it => it.id == hid) with
  | some i =>
      match pd.items[i]? with
      | some it => saveHighlightsForUrl st url pd.title (pd.items.set i (applyUpdates it u))
      | none => st
  | none => st

/-- The body of the `IMPORT_HIGHLIGHTS` merge loop, for one imported URL:
adopt the imported record when the URL is absent; otherwise append only the
imported items whose ids are not already present in the stored record,
filling in the title only when the stored one is empty. -/
def importStep (acc : Store) (kv : List Char × PageRecord) : Store :=
  match List.lookup kv.1 acc with
  | none => setRecord acc kv.1 kv.2
  | some r =>
      setRecord acc kv.1
        ⟨if r.title = [] ∧ kv.2.title ≠ [] then kv.2.title else r.title,
         r.items ++ kv.2.items.filter (fun it => !((r.items.map Item.id).contains it.id))⟩

/-- The `IMPORT_HIGHLIGHTS` handler: merge every imported URL's record into
the store. -/
def importHighlights (st imported : Store) : Store :=
  imported.foldl importStep st

/-! ## Resolver lemmas and claims C4, C5, C1 -/

/-- An occurrence as enumerated by `allOccs`: node path, node text,
occurrence index. -/
def Occ : Type := List Nat × List Char × Nat

/-- The context score of an occurrence. -/
def occScore (q pre suf : List Char) (o : Occ) : Nat :=
  scoreAt o.2.1 q pre suf o.2.2

/-- The resolved range an occurrence denotes. -/
def locOf (q : List Char) (o : Occ) : RLoc :=
  ⟨o.1, o.2.2, o.2.2 + q.length⟩

/-- The maximum context score over a list of occurrences. -/
def maxOccScore (q pre suf : List Char) (l : List Occ) : Nat :=
  (l.map (occScore q pre suf)).foldr max 0

/-- Merge a candidate best `(bl, bs)` with the result of scanning a later
list segment: the later result wins only with a strictly greater score. -/
def mergeBest (bl : RLoc) (bs : Nat) : Option (RLoc × Nat) → Option (RLoc × Nat)
  | none => some (bl, bs)
  | some (c, sc) => if bs < sc then some (c, sc) else some (bl, bs)

/-- The first-encountered maximum-scoring occurrence (specification-side
recursion; equal to the source's fold by `foldl_bestStep_eq_firstMaxOcc`). -/
def firstMaxOcc (q pre suf : List Char) : List Occ → Option (RLoc × Nat)
  | [] => none
  | o :: l => mergeBest (locOf q o) (occScore q pre suf o) (firstMaxOcc q pre suf l)

theorem mergeBest_none (bl : RLoc) (bs : Nat) : mergeBest bl bs none = some (bl, bs) := rfl

theorem mergeBest_some (bl : RLoc) (bs : Nat) (c : RLoc) (sc : Nat) :
    mergeBest bl bs (some (c, sc)) = if bs < sc then some (c, sc) else some (bl, bs) := rfl

theorem occScore_pos (q pre suf : List Char) (o : Occ) : 0 < occScore q pre suf o := by
  unfold occScore scoreAt
  omega

theorem bestStep_some (q pre suf : List Char) (bl : RLoc) (bs : Nat) (o : Occ) :
    bestStep q pre suf (some (bl, bs)) o =
      if bs < occScore q pre suf o then some (locOf q o, occScore q pre suf o)
      else some (bl, bs) := rfl

theorem bestStep_none (q pre suf : List Char) (o : Occ) :
    bestStep q pre suf none o =
      if 0 < occScore q pre suf o then some (locOf q o, occScore q pre suf o)
      else none := rfl

theorem foldl_bestStep_from_some (q pre suf : List Char) (l : List Occ)
    (bl : RLoc) (bs : Nat) :
    l.foldl (bestStep q pre suf) (some (bl, bs)) =
      mergeBest bl bs (firstMaxOcc q pre suf l) := by
  induction l generalizing bl bs with
  | nil => rfl
  | cons o l ih =>
    rw [List.foldl_cons, bestStep_some, firstMaxOcc]
    by_cases hb : bs < occScore q pre suf o
    · rw [if_pos hb, ih]
      rcases hfm : firstMaxOcc q pre suf l with _ | ⟨c, sc⟩
      · simp only [hfm, mergeBest_none, mergeBest_some]
        rw [if_pos hb]
      · simp only [hfm, mergeBest_some]
        by_cases hsc : occScore q pre suf o < sc
        · rw [if_pos hsc, mergeBest_some, if_pos (by omega)]
        · rw [if_neg hsc, mergeBest_some, if_pos hb]
    · rw [if_neg hb, ih]
      rcases hfm : firstMaxOcc q pre suf l with _ | ⟨c, sc⟩
      · simp only [hfm, mergeBest_none, mergeBest_some]
        rw [if_neg hb]
      · simp only [hfm, mergeBest_some]
        by_cases hsc : occScore q pre suf o < sc
        · rw [if_pos hsc, mergeBest_some]
        · rw [if_neg hsc, mergeBest_some, if_neg (by omega), if_neg hb]

theorem foldl_bestStep_eq_firstMaxOcc (q pre suf : List Char) (l : List Occ) :
    l.foldl (bestStep q pre suf) none = firstMaxOcc q pre suf l := by
  cases l with
  | nil => rfl
  | cons o l =>
    rw [List.foldl_cons, bestStep_none, if_pos (occScore_pos q pre suf o),
      foldl_bestStep_from_some, firstMaxOcc]

theorem firstMaxOcc_eq_none_iff (q pre suf : List Char) (l : List Occ) :
    firstMaxOcc q pre suf l = none ↔ l = [] := by
  cases l with
  | nil => simp [firstMaxOcc]
  | cons o l =>
    rw [firstMaxOcc]
    rcases hfm : firstMaxOcc q pre suf l with _ | ⟨c, sc⟩
    · simp [mergeBest_none]
    · rw [mergeBest_some]
      by_cases hsc : occScore q pre suf o < sc <;> simp [hsc]

theorem firstMaxOcc_score (q pre suf : List Char) (l : List Occ) (c : RLoc) (sc : Nat)
    (h : firstMaxOcc q pre suf l = some (c, sc)) :
    sc = maxOccScore q pre suf l := by
  induction l generalizing c sc with
  | nil => exact absurd h (by simp [firstMaxOcc])
  | cons o l ih =>
    rw [firstMaxOcc] at h
    rcases hfm : firstMaxOcc q pre suf l with _ | ⟨c2, sc2⟩
    · rw [hfm, mergeBest_none] at h
      have hl : l = [] := (firstMaxOcc_eq_none_iff q pre suf l).mp hfm
      subst hl
      simp only [Option.some.injEq, Prod.mk.injEq] at h
      simp [maxOccScore, ← h.2]
    · rw [hfm, mergeBest_some] at h
      have hsc2 := ih c2 sc2 hfm
      simp only [maxOccScore, List.map_cons, List.foldr_cons]
      unfold maxOccScore at hsc2
      by_cases hlt : occScore q pre suf o < sc2
      · rw [if_pos hlt] at h
        simp only [Option.some.injEq, Prod.mk.injEq] at h
        omega
      · rw [if_neg hlt] at h
        simp only [Option.some.injEq, Prod.mk.injEq] at h
        omega

theorem firstMaxOcc_eq_find? (q pre suf : List Char) (l : List Occ) :
    firstMaxOcc q pre suf l =
      (l.find? (fun o => decide (maxOccScore q pre suf l ≤ occScore q pre suf o))).map
        (fun o => (locOf q o, occScore q pre suf o)) := by
  induction l with
  | nil => rfl
  | cons o l ih =>
    rw [firstMaxOcc]
    rcases hfm : firstMaxOcc q pre suf l with _ | ⟨c, sc⟩
    · have hl : l = [] := (firstMaxOcc_eq_none_iff q pre suf l).mp hfm
      subst hl
      rw [mergeBest_none, List.find?_cons_of_pos _ (by simp [maxOccScore])]
      rfl
    · have hsc := firstMaxOcc_score q pre suf l c sc hfm
      rw [mergeBest_some]
      have hmax : maxOccScore q pre suf (o :: l) =
          max (occScore q pre suf o) (maxOccScore q pre suf l) := by
        simp [maxOccScore]
      by_cases hlt : occScore q pre suf o < sc
      · rw [if_pos hlt]
        rw [List.find?_cons_of_neg _ (by simp; omega)]
        have hm2 : maxOccScore q pre suf (o :: l) = maxOccScore q pre suf l := by omega
        rw [hm2, ← ih, hfm]
      · rw [if_neg hlt]
        rw [List.find?_cons_of_pos _ (by simp; omega)]
        rfl

/-- The two nested loops of `findQuoteWithContext` traverse exactly the
flattened occurrence list `allOccs`. -/
theorem nested_foldl_bestStep (q pre suf : List Char)
    (l : List (List Nat × List Char)) (b : Option (RLoc × Nat)) :
    l.foldl (fun b' ps => (occIdxs ps.2 q).foldl
        (fun b'' i => bestStep q pre suf b'' (ps.1, ps.2, i)) b') b =
      (l.flatMap (fun ps => (occIdxs ps.2 q).map (fun i => (ps.1, ps.2, i)))).foldl
        (bestStep q pre suf) b := by
  induction l generalizing b with
  | nil => rfl
  | cons ps rest ih =>
    rw [List.foldl_cons, List.flatMap_cons, List.foldl_append, List.foldl_map, ih]

theorem findQuoteWithContext_eq_firstMaxOcc (doc : DNode) (q pre suf : List Char)
    (hq : q ≠ []) :
    findQuoteWithContext doc q pre suf =
      (firstMaxOcc q pre suf (allOccs doc q)).map Prod.fst := by
  unfold findQuoteWithContext allOccs
  rw [if_neg hq, nested_foldl_bestStep, foldl_bestStep_eq_firstMaxOcc]

theorem tier1_eq (doc : DNode) (item : Item) (d : Decoded)
    (hdec : decodeTextPath doc item.xpath = some d) :
    tier1 doc item =
      if slice d.txt item.startOffset item.endOffset = item.quote then
        some ⟨d.parentPath ++ [d.childIdx], item.startOffset, item.endOffset⟩
      else none := by
  unfold tier1
  rw [hdec]

theorem tier2_eq (doc : DNode) (item : Item) (d : Decoded)
    (hdec : decodeTextPath doc item.xpath = some d) :
    tier2 doc item =
      (findQuoteInElement d.parentNode item.quote).map
        (fun pi => ⟨d.parentPath ++ pi.1, pi.2, pi.2 + item.quote.length⟩) := by
  unfold tier2
  rw [hdec]

theorem tryRestoreHighlight_of_tier1 (doc : DNode) (item : Item) (l : RLoc)
    (h : tier1 doc item = some l) : tryRestoreHighlight doc item = some l := by
  unfold tryRestoreHighlight
  rw [h]

theorem tryRestoreHighlight_of_tier2 (doc : DNode) (item : Item) (l : RLoc)
    (h1 : tier1 doc item = none) (h2 : tier2 doc item = some l) :
    tryRestoreHighlight doc item = some l := by
  unfold tryRestoreHighlight
  rw [h1, h2]

theorem findSome?_head_occ (q : List Char) (l : List (List Nat × List Char)) :
    l.findSome? (fun ps => (indexOfList ps.2 q).map (fun i => (ps.1, i))) =
      ((l.flatMap (fun ps => (occIdxs ps.2 q).map (fun i => (ps.1, ps.2, i)))).head?).map
        (fun o : Occ => (o.1, o.2.2)) := by
  induction l with
  | nil => rfl
  | cons ps rest ih =>
    rw [List.findSome?_cons, List.flatMap_cons, indexOfList_eq_head_occIdxs]
    cases h : occIdxs ps.2 q with
    | nil => simp [h, ih]
    | cons i is => simp [h]

/-- `findQuoteInElement` returns exactly the first element of the
document-ordered occurrence list of its subtree. -/
theorem findQuoteInElement_eq_head (root : DNode) (q : List Char) (hq : q ≠ []) :
    findQuoteInElement root q =
      ((allOccs root q).head?).map (fun o : Occ => (o.1, o.2.2)) := by
  unfold findQuoteInElement allOccs
  rw [if_neg hq, findSome?_head_occ]

/-- C1: for every anchor quote (non-empty, as every encoded quote is) and
every document, tier-3 resolution (`findQuoteWithContext`) returns the
occurrence of the quote with the maximum context score — `allOccs` lists
every occurrence in document order, `occScore` is the source's scoring
(base 1, +2 for an exact prefix match else +1 for containing the last 10
prefix characters, symmetrically for the suffix), and `find?` with the
maximal-score predicate picks the first maximum-scoring occurrence in
document order — and returns `none` (NotFound) when the quote occurs
nowhere. -/
theorem tier3_max_context_score (doc : DNode) (q pre suf : List Char) (hq : q ≠ []) :
    findQuoteWithContext doc q pre suf =
      ((allOccs doc q).find? (fun o =>
          decide (maxOccScore q pre suf (allOccs doc q) ≤ occScore q pre suf o))).map
        (locOf q) ∧
    (allOccs doc q = [] → findQuoteWithContext doc q pre suf = none) := by
  have h1 := findQuoteWithContext_eq_firstMaxOcc doc q pre suf hq
  have h2 := firstMaxOcc_eq_find? q pre suf (allOccs doc q)
  constructor
  · rw [h1, h2]
    rcases (allOccs doc q).find? (fun o =>
        decide (maxOccScore q pre suf (allOccs doc q) ≤ occScore q pre suf o)) with _ | o
    · rfl
    · rfl
  · intro he
    rw [h1, he]
    rfl

/-- The document of the spec's concrete tier-3 scenario: two occurrences of
"quick brown fox", only the second followed by " jumps.". -/
def c1doc : DNode :=
  .elem "body" none
    [.text "The quick brown fox. ".toList,
     .elem "p" none [.text "The quick brown fox jumps.".toList]]

/-- C1 witness: the scenario document, where the second occurrence (exact
prefix and suffix, score 5) beats the first (exact prefix only, score 3). -/
theorem tier3_max_context_score_witness :
    ("quick brown fox".toList ≠ ([] : List Char)) ∧
    (findQuoteWithContext c1doc "quick brown fox".toList "The ".toList " jumps.".toList =
        ((allOccs c1doc "quick brown fox".toList).find? (fun o =>
            decide (maxOccScore "quick brown fox".toList "The ".toList " jumps.".toList
                (allOccs c1doc "quick brown fox".toList) ≤
              occScore "quick brown fox".toList "The ".toList " jumps.".toList o))).map
          (locOf "quick brown fox".toList) ∧
      (allOccs c1doc "quick brown fox".toList = [] →
        findQuoteWithContext c1doc "quick brown fox".toList "The ".toList " jumps.".toList =
          none)) ∧
    findQuoteWithContext c1doc "quick brown fox".toList "The ".toList " jumps.".toList =
      some ⟨[1, 0], 4, 19⟩ :=
  ⟨by decide,
   tier3_max_context_score c1doc "quick brown fox".toList "The ".toList " jumps.".toList
     (by decide),
   by decide⟩

/-- C4: when the structural path decodes to a text node whose content at
`[startOffset, endOffset)` equals the quote exactly, resolution returns
exactly that range (tier 1); when the offset check fails in any way, tier 1
does not succeed. -/
theorem tier1_exact_structural (doc : DNode) (item : Item) (d : Decoded)
    (hdec : decodeTextPath doc item.xpath = some d) :
    (slice d.txt item.startOffset item.endOffset = item.quote →
      tryRestoreHighlight doc item =
        some ⟨d.parentPath ++ [d.childIdx], item.startOffset, item.endOffset⟩) ∧
    (slice d.txt item.startOffset item.endOffset ≠ item.quote →
      tier1 doc item = none) := by
  constructor
  · intro he
    apply tryRestoreHighlight_of_tier1
    rw [tier1_eq doc item d hdec, if_pos he]
  · intro hne
    rw [tier1_eq doc item d hdec, if_neg hne]

def c4doc : DNode := .elem "body" none [.elem "p" none [.text "hello world".toList]]

def c4item : Item :=
  { id := "hl-1", quote := "world".toList, pre := "hello ".toList, suf := [],
    xpath := ⟨[("p", 1)], 1⟩, startOffset := 6, endOffset := 11,
    color := "#FFEB3B", note := [], tags := [], createdAt := 0 }

def c4dec : Decoded :=
  ⟨[0], .elem "p" none [.text "hello world".toList], 0, "hello world".toList⟩

/-- C4 witness: an unmodified document, where tier 1 returns the stored
range. -/
theorem tier1_exact_structural_witness :
    decodeTextPath c4doc c4item.xpath = some c4dec ∧
    slice c4dec.txt c4item.startOffset c4item.endOffset = c4item.quote ∧
    tryRestoreHighlight c4doc c4item = some ⟨[0, 0], 6, 11⟩ :=
  ⟨rfl, by decide, (tier1_exact_structural c4doc c4item c4dec rfl).1 (by decide)⟩

/-- C5: when the structural path decodes to an existing text node but the
offset check fails, resolution scans the text descendants of the decoded
node's parent in depth-first document order and returns the first
occurrence of the quote (`allOccs` lists the subtree's occurrences in
document order; its head is the first). -/
theorem tier2_first_in_subtree (doc : DNode) (item : Item) (d : Decoded) (occ : Occ)
    (hq : item.quote ≠ [])
    (hdec : decodeTextPath doc item.xpath = some d)
    (hne : slice d.txt item.startOffset item.endOffset ≠ item.quote)
    (hocc : (allOccs d.parentNode item.quote).head? = some occ) :
    tryRestoreHighlight doc item =
      some ⟨d.parentPath ++ occ.1, occ.2.2, occ.2.2 + item.quote.length⟩ := by
  apply tryRestoreHighlight_of_tier2
  · rw [tier1_eq doc item d hdec, if_neg hne]
  · rw [tier2_eq doc item d hdec, findQuoteInElement_eq_head _ _ hq, hocc]
    rfl

def c5doc : DNode := .elem "body" none [.elem "p" none [.text "xhello worldy".toList]]

def c5item : Item :=
  { id := "hl-2", quote := "world".toList, pre := [], suf := [],
    xpath := ⟨[("p", 1)], 1⟩, startOffset := 0, endOffset := 5,
    color := "#FFEB3B", note := [], tags := [], createdAt := 0 }

def c5dec : Decoded :=
  ⟨[0], .elem "p" none [.text "xhello worldy".toList], 0, "xhello worldy".toList⟩

/-- C5 witness: a document whose text shifted inside the same node, where
tier 2 finds the quote at its new position. -/
theorem tier2_first_in_subtree_witness :
    decodeTextPath c5doc c5item.xpath = some c5dec ∧
    slice c5dec.txt c5item.startOffset c5item.endOffset ≠ c5item.quote ∧
    tryRestoreHighlight c5doc c5item = some ⟨[0, 0], 7, 12⟩ :=
  ⟨rfl, by decide,
   tier2_first_in_subtree c5doc c5item c5dec ([0], "xhello worldy".toList, 7)
     (by decide) rfl (by decide) (by decide)⟩

/-! ## Claims C2 and C3: the Locator Codec -/

/-- C2 counterexample: a selection carrying surrounding whitespace.  The
encode succeeds, but the stored quote is the *trimmed* selection text
(`selection.toString().trim()`), while `startOffset`/`endOffset` are the raw
range offsets — so `quote ≠ substring(ownerText, startOffset, endOffset)`:
here the owner text is `"a b"`, the offsets are 1 and 3, the substring is
`" b"` but the stored quote is `"b"`. -/
theorem encode_quote_cex :
    getSelectionInfo (.elem "body" none [.text "a b".toList]) ⟨[0], 1, [0], 3⟩ =
      SelRes.ok ⟨"b".toList, ⟨[], 1⟩, 1, 3, "a".toList, []⟩ ∧
    ("b".toList : List Char) ≠ slice "a b".toList 1 3 := by
  constructor
  · decide
  · decide

/-- C2 (amended): for every successful encode of a selection contained in a
single text node, the stored quote equals the *trimmed* substring of the
owning text node's content between `startOffset` and `endOffset`; the
untrimmed equality of the original claim holds exactly when that substring
carries no leading or trailing whitespace.  Moreover no later operation on
the stored anchor changes `quote`: the update payloads carry only `color`,
`note` and `tags`, and merging them preserves `quote`. -/
theorem encode_quote_trimmed (doc : DNode) (sel : Sel) (s : List Char) (info : SelInfo)
    (hsame : sel.startPath = sel.endPath)
    (hnode : nodeAt doc sel.startPath = some (.text s))
    (hok : getSelectionInfo doc sel = SelRes.ok info) :
    info.quote = trimStr (slice s sel.startOffset sel.endOffset) ∧
    (trimStr (slice s sel.startOffset sel.endOffset) = slice s sel.startOffset sel.endOffset →
      info.quote = slice s sel.startOffset sel.endOffset) ∧
    ∀ (it : Item) (u : ItemUpdates), (applyUpdates it u).quote = it.quote := by
  have hq : info.quote = trimStr (slice s sel.startOffset sel.endOffset) := by
    have hst : selText doc sel = slice s sel.startOffset sel.endOffset := by
      unfold selText
      rw [if_pos hsame, hnode]
    unfold getSelectionInfo at hok
    rw [hst] at hok
    simp only [] at hok
    repeat' split at hok
    all_goals try (exact SelRes.noConfusion hok)
    rw [SelRes.ok.injEq] at hok
    rw [← hok]
  exact ⟨hq, fun h => by rw [hq, h], fun it u => rfl⟩

/-- C2 witness: a whitespace-free selection inside one text node, where the
trimmed and raw substrings coincide. -/
theorem encode_quote_trimmed_witness :
    nodeAt (.elem "body" none [.text "x yz".toList]) [0] = some (.text "x yz".toList) ∧
    getSelectionInfo (.elem "body" none [.text "x yz".toList]) ⟨[0], 2, [0], 4⟩ =
      SelRes.ok ⟨"yz".toList, ⟨[], 1⟩, 2, 4, "x ".toList, []⟩ ∧
    ("yz".toList : List Char) = trimStr (slice "x yz".toList 2 4) :=
  ⟨rfl, by decide,
   (encode_quote_trimmed (.elem "body" none [.text "x yz".toList]) ⟨[0], 2, [0], 4⟩
       "x yz".toList ⟨"yz".toList, ⟨[], 1⟩, 2, 4, "x ".toList, []⟩
       rfl rfl (by decide)).1⟩

/-- C3 counterexample: a selection whose start and end lie in two *distinct*
sibling text nodes under the same parent.  The claim says encode must
reject it with MultiNode; the source's check explicitly lets this case fall
through ("check if it's _just_ text nodes within same parent") and encodes
the selection using the start container as owner. -/
theorem encode_multinode_cex :
    getSelectionInfo (.elem "body" none [.text "hello ".toList, .text "world".toList])
        ⟨[0], 0, [1], 3⟩ =
      SelRes.ok ⟨"hello wor".toList, ⟨[], 1⟩, 0, 3, [], "lo ".toList⟩ := by
  decide

/-- C3 (amended): a selection whose containers differ is rejected with
`MultiNode` *unless* both endpoints are text nodes sharing the same parent
node — in that case encode proceeds, treating the start container as the
owning node.  The rejection (given a non-empty trimmed selection text, the
precondition checked first) is proved here; the acceptance of the
same-parent case is the counterexample. -/
theorem encode_multinode_rejected (doc : DNode) (sel : Sel)
    (hne : sel.startPath ≠ sel.endPath)
    (hcond : ¬(isTextAt doc sel.startPath = true ∧ isTextAt doc sel.endPath = true ∧
               sameParentB sel.startPath sel.endPath = true))
    (htext : trimStr (selText doc sel) ≠ []) :
    getSelectionInfo doc sel = SelRes.selErr .multiNode (trimStr (selText doc sel)) := by
  unfold getSelectionInfo
  simp only []
  rw [if_neg htext, if_pos]
  rw [Bool.and_eq_true, bne_iff_ne]
  refine ⟨hne, ?_⟩
  cases hA : isTextAt doc sel.startPath <;>
    cases hB : isTextAt doc sel.endPath <;>
      cases hC : sameParentB sel.startPath sel.endPath <;> simp_all

/-- C3 witness: a selection spanning two text nodes with *different*
parents, rejected with MultiNode. -/
theorem encode_multinode_rejected_witness :
    (([0, 0] : List Nat) ≠ [1, 0]) ∧
    getSelectionInfo
        (.elem "body" none [.elem "p" none [.text "ab".toList],
                            .elem "p" none [.text "cd".toList]])
        ⟨[0, 0], 0, [1, 0], 2⟩ =
      SelRes.selErr .multiNode
        (trimStr (selText
          (.elem "body" none [.elem "p" none [.text "ab".toList],
                              .elem "p" none [.text "cd".toList]])
          ⟨[0, 0], 0, [1, 0], 2⟩)) :=
  ⟨by decide,
   encode_multinode_rejected
     (.elem "body" none [.elem "p" none [.text "ab".toList],
                         .elem "p" none [.text "cd".toList]])
     ⟨[0, 0], 0, [1, 0], 2⟩ (by decide) (by decide) (by decide)⟩

/-! ## Claims C7 and C8: the storage layer -/

theorem lookup_setRecord_self (st : Store) (u : List Char) (r : PageRecord) :
    List.lookup u (setRecord st u r) = some r := by
  induction st with
  | nil => simp [setRecord, List.lookup]
  | cons kv rest ih =>
    rcases kv with ⟨k, v⟩
    unfold setRecord
    by_cases h : k = u
    · rw [if_pos h]
      simp [List.lookup]
    · rw [if_neg h]
      have hb : (u == k) = false := by simp [Ne.symm h]
      simp [List.lookup, hb, ih]

theorem lookup_setRecord_ne (st : Store) (u k : List Char) (r : PageRecord)
    (h : u ≠ k) : List.lookup u (setRecord st k r) = List.lookup u st := by
  induction st with
  | nil =>
    have hb : (u == k) = false := by simp [h]
    simp [setRecord, List.lookup, hb]
  | cons kv rest ih =>
    rcases kv with ⟨k', v⟩
    unfold setRecord
    by_cases hk : k' = k
    · rw [if_pos hk, hk]
      have hb : (u == k) = false := by simp [h]
      simp [List.lookup, hb]
    · rw [if_neg hk]
      by_cases hu : u = k'
      · have hb : (u == k') = true := by simp [hu]
        simp [List.lookup, hb]
      · have hb : (u == k') = false := by simp [hu]
        simp [List.lookup, hb, ih]

theorem lookup_delRecord_self (st : Store) (u : List Char) :
    List.lookup u (delRecord st u) = none := by
  induction st with
  | nil => simp [delRecord, List.lookup]
  | cons kv rest ih =>
    rcases kv with ⟨k, v⟩
    unfold delRecord
    by_cases h : k = u
    · rw [if_pos h]
      exact ih
    · rw [if_neg h]
      have hb : (u == k) = false := by simp [Ne.symm h]
      simp [List.lookup, hb, ih]

theorem lookup_delRecord_ne (st : Store) (u k : List Char) (h : u ≠ k) :
    List.lookup u (delRecord st k) = List.lookup u st := by
  induction st with
  | nil => simp [delRecord]
  | cons kv rest ih =>
    rcases kv with ⟨k', v⟩
    unfold delRecord
    by_cases hk : k' = k
    · rw [if_pos hk, hk]
      have hb : (u == k) = false := by simp [h]
      simp [List.lookup, hb, ih]
    · rw [if_neg hk]
      by_cases hu : u = k'
      · have hb : (u == k') = true := by simp [hu]
        simp [List.lookup, hb]
      · have hb : (u == k') = false := by simp [hu]
        simp [List.lookup, hb, ih]

/-- C7: deleting an anchor from a stored PageRecord — when the deleted
anchor was the record's only anchor (so the filtered item list is empty)
the whole record is removed from storage; otherwise exactly the items with
the deleted id are removed while the remaining items are kept with all
their fields unchanged and in their original relative order (the filtered
list is a sublist of the original containing every other item), and every
other URL's record is untouched. -/
theorem removeHighlight_correct (st : Store) (url : List Char) (hid : String)
    (r : PageRecord) (h : List.lookup (normalizeUrl url) st = some r) :
    (r.items.filter (fun it => it.id != hid) = [] →
      List.lookup (normalizeUrl url) (removeHighlight st url hid) = none) ∧
    (r.items.filter (fun it => it.id != hid) ≠ [] →
      List.lookup (normalizeUrl url) (removeHighlight st url hid) =
        some ⟨r.title, r.items.filter (fun it => it.id != hid)⟩) ∧
    List.Sublist (r.items.filter (fun it => it.id != hid)) r.items ∧
    (∀ a ∈ r.items, a.id ≠ hid → a ∈ r.items.filter (fun it => it.id != hid)) ∧
    (∀ u', u' ≠ normalizeUrl url →
      List.lookup u' (removeHighlight st url hid) = List.lookup u' st) := by
  have hpd : getHighlightsForUrl st url = r := by
    unfold getHighlightsForUrl
    rw [h]
  have hrw : removeHighlight st url hid =
      saveHighlightsForUrl st url r.title (r.items.filter (fun it => it.id != hid)) := by
    unfold removeHighlight
    rw [hpd]
  refine ⟨?_, ?_, List.filter_sublist _, ?_, ?_⟩
  · intro he
    rw [hrw]
    unfold saveHighlightsForUrl
    rw [if_pos he]
    exact lookup_delRecord_self st (normalizeUrl url)
  · intro hne
    rw [hrw]
    unfold saveHighlightsForUrl
    rw [if_neg hne]
    exact lookup_setRecord_self st (normalizeUrl url) _
  · intro a ha hid'
    rw [List.mem_filter]
    exact ⟨ha, by simp [hid']⟩
  · intro u' hu'
    rw [hrw]
    unfold saveHighlightsForUrl
    by_cases he : r.items.filter (fun it => it.id != hid) = []
    · rw [if_pos he]
      exact lookup_delRecord_ne st u' (normalizeUrl url) hu'
    · rw [if_neg he]
      exact lookup_setRecord_ne st u' (normalizeUrl url) _ hu'

def c7itemA : Item :=
  { id := "hl-a", quote := "aa".toList, pre := [], suf := [], xpath := ⟨[], 1⟩,
    startOffset := 0, endOffset := 2, color := "#FFEB3B", note := "na".toList,
    tags := ["#t"], createdAt := 1 }

def c7itemB : Item :=
  { id := "hl-b", quote := "bb".toList, pre := [], suf := [], xpath := ⟨[], 1⟩,
    startOffset := 2, endOffset := 4, color := "#69F0AE", note := "nb".toList,
    tags := [], createdAt := 2 }

/-- C7 witness: a two-anchor record ("u" is not a parseable URL, so it
normalizes to itself); deleting one anchor keeps the other unchanged. -/
theorem removeHighlight_correct_witness :
    List.lookup (normalizeUrl "u".toList) [(("u".toList : List Char),
        (⟨"T".toList, [c7itemA, c7itemB]⟩ : PageRecord))] =
      some ⟨"T".toList, [c7itemA, c7itemB]⟩ ∧
    [c7itemA, c7itemB].filter (fun it => it.id != "hl-a") ≠ [] ∧
    List.lookup (normalizeUrl "u".toList)
        (removeHighlight [(("u".toList : List Char),
          (⟨"T".toList, [c7itemA, c7itemB]⟩ : PageRecord))] "u".toList "hl-a") =
      some ⟨"T".toList, [c7itemA, c7itemB].filter (fun it => it.id != "hl-a")⟩ :=
  ⟨by decide, by decide,
   (removeHighlight_correct [(("u".toList : List Char),
       (⟨"T".toList, [c7itemA, c7itemB]⟩ : PageRecord))] "u".toList "hl-a"
       ⟨"T".toList, [c7itemA, c7itemB]⟩ (by decide)).2.1 (by decide)⟩

/-- Processing imported entries whose keys all differ from `u` leaves the
record at `u` unchanged. -/
theorem fold_importStep_preserves_key (rest : List (List Char × PageRecord))
    (acc : Store) (u : List Char) (hu : u ∉ rest.map Prod.fst) :
    List.lookup u (rest.foldl importStep acc) = List.lookup u acc := by
  induction rest generalizing acc with
  | nil => rfl
  | cons kv rest2 ih =>
    rw [List.foldl_cons]
    have hne : u ≠ kv.1 := by
      intro he
      apply hu
      rw [List.map_cons, he]
      exact List.mem_cons_self _ _
    have hstep : ∀ acc', List.lookup u (importStep acc' kv) = List.lookup u acc' := by
      intro acc'
      unfold importStep
      rcases hl : List.lookup kv.1 acc' with _ | r
      · exact lookup_setRecord_ne acc' u kv.1 _ hne
      · exact lookup_setRecord_ne acc' u kv.1 _ hne
    have hu2 : u ∉ rest2.map Prod.fst := by
      intro hm
      apply hu
      rw [List.map_cons]
      exact List.mem_cons_of_mem _ hm
    rw [ih _ hu2, hstep]

theorem importStep_lookup_self_none (acc : Store) (kv : List Char × PageRecord)
    (h : List.lookup kv.1 acc = none) :
    List.lookup kv.1 (importStep acc kv) = some kv.2 := by
  unfold importStep
  rw [h]
  exact lookup_setRecord_self acc kv.1 kv.2

theorem importStep_lookup_self_some (acc : Store) (kv : List Char × PageRecord)
    (r : PageRecord) (h : List.lookup kv.1 acc = some r) :
    List.lookup kv.1 (importStep acc kv) =
      some ⟨if r.title = [] ∧ kv.2.title ≠ [] then kv.2.title else r.title,
            r.items ++ kv.2.items.filter (fun it => !((r.items.map Item.id).contains it.id))⟩ := by
  unfold importStep
  rw [h]
  exact lookup_setRecord_self acc kv.1 _

theorem importStep_lookup_ne (acc : Store) (kv : List Char × PageRecord)
    (u : List Char) (hne : u ≠ kv.1) :
    List.lookup u (importStep acc kv) = List.lookup u acc := by
  unfold importStep
  rcases hl : List.lookup kv.1 acc with _ | r
  · exact lookup_setRecord_ne acc u kv.1 _ hne
  · exact lookup_setRecord_ne acc u kv.1 _ hne

/-- Importing never touches an existing record except by appending: the
pre-import item list stays a prefix of the merged item list. -/
theorem import_preserves_existing (imported : List (List Char × PageRecord)) :
    ∀ (st : Store) (u : List Char) (r : PageRecord),
      List.lookup u st = some r →
      ∃ r', List.lookup u (imported.foldl importStep st) = some r' ∧
        r.items <+: r'.items := by
  induction imported with
  | nil =>
    intro st u r h
    exact ⟨r, h, List.prefix_refl _⟩
  | cons kv rest ih =>
    intro st u r h
    rw [List.foldl_cons]
    by_cases hk : u = kv.1
    · have hl2 : List.lookup kv.1 st = some r := by
        rw [← hk]
        exact h
      have h2 : List.lookup u (importStep st kv) =
          some ⟨if r.title = [] ∧ kv.2.title ≠ [] then kv.2.title else r.title,
                r.items ++ kv.2.items.filter
                  (fun it => !((r.items.map Item.id).contains it.id))⟩ := by
        rw [hk]
        exact importStep_lookup_self_some st kv r hl2
      rcases ih (importStep st kv) u _ h2 with ⟨r', hr', hpre⟩
      exact ⟨r', hr', List.IsPrefix.trans (List.prefix_append _ _) hpre⟩
    · have h2 : List.lookup u (importStep st kv) = some r := by
        rw [importStep_lookup_ne st kv u hk]
        exact h
      exact ih (importStep st kv) u r h2

/-- An imported anchor whose id is not already stored under its URL ends up
in the resulting record for that URL. -/
theorem import_adds_absent (imported : List (List Char × PageRecord)) :
    ∀ (st : Store) (u : List Char) (irec : PageRecord) (a : Item),
      (imported.map Prod.fst).Nodup →
      (u, irec) ∈ imported → a ∈ irec.items →
      (∀ r', List.lookup u st = some r' → ∀ b ∈ r'.items, b.id ≠ a.id) →
      ∃ r'', List.lookup u (imported.foldl importStep st) = some r'' ∧
        a ∈ r''.items := by
  induction imported with
  | nil =>
    intro st u irec a _ hmem _ _
    exact absurd hmem (by simp)
  | cons kv rest ih =>
    intro st u irec a hnd hmem ha hab
    rw [List.foldl_cons]
    rw [List.map_cons, List.nodup_cons] at hnd
    rcases List.mem_cons.mp hmem with heq | hmem2
    · have hu : u = kv.1 := by rw [← heq]
      have hrec : irec = kv.2 := by rw [← heq]
      have hkeep : List.lookup u (rest.foldl importStep (importStep st kv)) =
          List.lookup u (importStep st kv) :=
        fold_importStep_preserves_key rest (importStep st kv) u
          (by rw [hu]; exact hnd.1)
      rcases hl : List.lookup kv.1 st with _ | r2
      · refine ⟨kv.2, ?_, by rw [← hrec]; exact ha⟩
        rw [hkeep, hu]
        exact importStep_lookup_self_none st kv hl
      · refine ⟨⟨if r2.title = [] ∧ kv.2.title ≠ [] then kv.2.title else r2.title,
          r2.items ++ kv.2.items.filter
            (fun it => !((r2.items.map Item.id).contains it.id))⟩, ?_, ?_⟩
        · rw [hkeep, hu]
          exact importStep_lookup_self_some st kv r2 hl
        · simp only [List.mem_append, List.mem_filter]
          right
          refine ⟨by rw [← hrec]; exact ha, ?_⟩
          have hnotin : ∀ b ∈ r2.items, b.id ≠ a.id :=
            hab r2 (by rw [hu]; exact hl)
          simp only [Bool.not_eq_true']
          rw [← Bool.not_eq_true]
          intro hcontains
          rw [List.contains_iff_exists_mem_beq] at hcontains
          rcases hcontains with ⟨bid, hbid, hbeq⟩
          rcases List.mem_map.mp hbid with ⟨b, hb, hbid2⟩
          exact hnotin b hb (by rw [hbid2]; exact (beq_iff_eq.mp hbeq).symm)
    · have hune : u ≠ kv.1 := by
        intro he
        apply hnd.1
        rw [← he]
        exact List.mem_map.mpr ⟨(u, irec), hmem2, rfl⟩
      have hab2 : ∀ r', List.lookup u (importStep st kv) = some r' →
          ∀ b ∈ r'.items, b.id ≠ a.id := by
        intro r' hr'
        rw [importStep_lookup_ne st kv u hune] at hr'
        exact hab r' hr'
      exact ih (importStep st kv) u irec a hnd.2 hmem2 ha hab2

/-- C8: import performs a union merge keyed by anchor id.  (1) Every URL
already stored keeps its record with the pre-import item list as a *prefix*
of the merged item list — so every already-present anchor keeps all of its
fields (note and tags included) and its position, and is never overwritten.
(2) Every imported anchor whose id does not occur in the stored record of
its URL (in particular, every anchor whose id is absent from the whole
store) ends up in the resulting record for that URL. -/
theorem import_union_merge (st imported : Store)
    (hnd : (imported.map Prod.fst).Nodup) :
    (∀ u r, List.lookup u st = some r →
      ∃ r', List.lookup u (importHighlights st imported) = some r' ∧
        r.items <+: r'.items) ∧
    (∀ u irec (a : Item), (u, irec) ∈ imported → a ∈ irec.items →
      (∀ r', List.lookup u st = some r' → ∀ b ∈ r'.items, b.id ≠ a.id) →
      ∃ r'', List.lookup u (importHighlights st imported) = some r'' ∧
        a ∈ r''.items) :=
  ⟨fun u r h => import_preserves_existing imported st u r h,
   fun u irec a hmem ha hab => import_adds_absent imported st u irec a hnd hmem ha hab⟩

def c8itemNew : Item :=
  { id := "hl-new", quote := "nn".toList, pre := [], suf := [], xpath := ⟨[], 1⟩,
    startOffset := 0, endOffset := 2, color := "#40C4FF", note := "imported".toList,
    tags := [], createdAt := 3 }

/-- C8 witness: importing a snapshot for an already-stored URL whose record
holds `hl-a`: the existing item survives as a prefix, and the genuinely new
`hl-new` is appended. -/
theorem import_union_merge_witness :
    ((([(("u".toList : List Char),
        (⟨"S".toList, [c7itemA, c8itemNew]⟩ : PageRecord))]).map Prod.fst).Nodup) ∧
    List.lookup ("u".toList : List Char)
        [(("u".toList : List Char), (⟨"T".toList, [c7itemA]⟩ : PageRecord))] =
      some ⟨"T".toList, [c7itemA]⟩ ∧
    (∃ r', List.lookup ("u".toList : List Char)
        (importHighlights
          [(("u".toList : List Char), (⟨"T".toList, [c7itemA]⟩ : PageRecord))]
          [(("u".toList : List Char), (⟨"S".toList, [c7itemA, c8itemNew]⟩ : PageRecord))]) =
          some r' ∧
      [c7itemA] <+: r'.items) ∧
    (∃ r'', List.lookup ("u".toList : List Char)
        (importHighlights
          [(("u".toList : List Char), (⟨"T".toList, [c7itemA]⟩ : PageRecord))]
          [(("u".toList : List Char), (⟨"S".toList, [c7itemA, c8itemNew]⟩ : PageRecord))]) =
          some r'' ∧
      c8itemNew ∈ r''.items) :=
  ⟨by decide, by decide,
   (import_union_merge
       [(("u".toList : List Char), (⟨"T".toList, [c7itemA]⟩ : PageRecord))]
       [(("u".toList : List Char), (⟨"S".toList, [c7itemA, c8itemNew]⟩ : PageRecord))]
       (by decide)).1 "u".toList ⟨"T".toList, [c7itemA]⟩ (by decide),
   (import_union_merge
       [(("u".toList : List Char), (⟨"T".toList, [c7itemA]⟩ : PageRecord))]
       [(("u".toList : List Char), (⟨"S".toList, [c7itemA, c8itemNew]⟩ : PageRecord))]
       (by decide)).2 "u".toList ⟨"S".toList, [c7itemA, c8itemNew]⟩ c8itemNew
       (by decide) (by decide) (by decide)⟩

/-! ## Claim C9: URL normalization -/

theorem char_toNat_ofNat_valid (n : Nat) (h : n.isValidChar) : (Char.ofNat n).toNat = n := by
  simp [Char.ofNat, h, Char.ofNatAux, Char.toNat, UInt32.toNat]

theorem char_eq_of_toNat_eq {c d : Char} (h : c.toNat = d.toNat) : c = d := by
  rw [← Char.ofNat_toNat c, ← Char.ofNat_toNat d, h]

theorem char_eq_iff_toNat (c d : Char) : c = d ↔ c.toNat = d.toNat :=
  ⟨fun h => by rw [h], char_eq_of_toNat_eq⟩

theorem char_toLower_toNat (c : Char) :
    (Char.toLower c).toNat = if c.toNat ≥ 65 ∧ c.toNat ≤ 90 then c.toNat + 32 else c.toNat := by
  unfold Char.toLower
  by_cases h : c.toNat ≥ 65 ∧ c.toNat ≤ 90
  · rw [if_pos h, if_pos h]
    exact char_toNat_ofNat_valid _ (Or.inl (by omega))
  · rw [if_neg h, if_neg h]

theorem char_toLower_idem (c : Char) :
    Char.toLower (Char.toLower c) = Char.toLower c := by
  apply char_eq_of_toNat_eq
  rw [char_toLower_toNat (Char.toLower c), char_toLower_toNat c]
  split_ifs <;> omega

theorem isAlphaC_toLower (c : Char) : isAlphaC (Char.toLower c) = isAlphaC c := by
  rw [Bool.eq_iff_iff]
  unfold isAlphaC
  rw [char_toLower_toNat c]
  by_cases h : c.toNat ≥ 65 ∧ c.toNat ≤ 90
  · rw [if_pos h]
    simp only [Bool.or_eq_true, Bool.and_eq_true, decide_eq_true_eq]
    omega
  · rw [if_neg h]

theorem notSepC_iff (c : Char) :
    notSepC c = true ↔ c.toNat ≠ 47 ∧ c.toNat ≠ 63 ∧ c.toNat ≠ 35 := by
  unfold notSepC
  simp only [Bool.and_eq_true, Bool.not_eq_true', beq_eq_false_iff_ne, ne_eq]
  rw [char_eq_iff_toNat c '/', char_eq_iff_toNat c '?', char_eq_iff_toNat c '#']
  have h1 : ('/' : Char).toNat = 47 := rfl
  have h2 : ('?' : Char).toNat = 63 := rfl
  have h3 : ('#' : Char).toNat = 35 := rfl
  rw [h1, h2, h3]
  omega

theorem notQH_iff (c : Char) :
    notQH c = true ↔ c.toNat ≠ 63 ∧ c.toNat ≠ 35 := by
  unfold notQH
  simp only [Bool.and_eq_true, Bool.not_eq_true', beq_eq_false_iff_ne, ne_eq]
  rw [char_eq_iff_toNat c '?', char_eq_iff_toNat c '#']
  have h2 : ('?' : Char).toNat = 63 := rfl
  have h3 : ('#' : Char).toNat = 35 := rfl
  rw [h2, h3]

theorem notSepC_toLower (c : Char) (h : notSepC c = true) :
    notSepC (Char.toLower c) = true := by
  rw [notSepC_iff] at h ⊢
  rw [char_toLower_toNat c]
  split_ifs <;> omega

theorem takeWhile_all {p : Char → Bool} {l : List Char}
    (h : ∀ a ∈ l, p a = true) : l.takeWhile p = l := by
  induction l with
  | nil => rfl
  | cons a rest ih =>
    rw [List.takeWhile_cons_of_pos (h a (List.mem_cons_self a rest))]
    rw [ih (fun x hx => h x (List.mem_cons_of_mem a hx))]

theorem takeWhile_prefix_stop {p : Char → Bool} {A : List Char} {b : Char} {B : List Char}
    (hA : ∀ a ∈ A, p a = true) (hb : p b = false) : (A ++ b :: B).takeWhile p = A := by
  rw [List.takeWhile_append_of_pos hA, List.takeWhile_cons_of_neg (by simp [hb])]
  simp

theorem lowerL_idem (x : List Char) : lowerL (lowerL x) = lowerL x := by
  unfold lowerL
  rw [List.map_map]
  apply List.map_congr_left
  intro a _
  exact char_toLower_idem a

theorem isAlphaC_iff (c : Char) :
    isAlphaC c = true ↔ (65 ≤ c.toNat ∧ c.toNat ≤ 90) ∨ (97 ≤ c.toNat ∧ c.toNat ≤ 122) := by
  unfold isAlphaC
  simp [Bool.or_eq_true, Bool.and_eq_true, decide_eq_true_eq]

theorem isDigitC_iff (c : Char) :
    isDigitC c = true ↔ 48 ≤ c.toNat ∧ c.toNat ≤ 57 := by
  unfold isDigitC
  simp [Bool.and_eq_true, decide_eq_true_eq]

theorem isSchemeC_iff (c : Char) :
    isSchemeC c = true ↔ ((65 ≤ c.toNat ∧ c.toNat ≤ 90) ∨ (97 ≤ c.toNat ∧ c.toNat ≤ 122) ∨
      (48 ≤ c.toNat ∧ c.toNat ≤ 57) ∨ c.toNat = 43 ∨ c.toNat = 45 ∨ c.toNat = 46) := by
  unfold isSchemeC isAlphaC isDigitC
  simp only [Bool.or_eq_true, Bool.and_eq_true, decide_eq_true_eq, beq_iff_eq]
  rw [char_eq_iff_toNat c '+', char_eq_iff_toNat c '-', char_eq_iff_toNat c '.']
  have h1 : ('+' : Char).toNat = 43 := rfl
  have h2 : ('-' : Char).toNat = 45 := rfl
  have h3 : ('.' : Char).toNat = 46 := rfl
  rw [h1, h2, h3]
  omega

theorem isHostC_iff (c : Char) :
    isHostC c = true ↔ ((65 ≤ c.toNat ∧ c.toNat ≤ 90) ∨ (97 ≤ c.toNat ∧ c.toNat ≤ 122) ∨
      (48 ≤ c.toNat ∧ c.toNat ≤ 57) ∨ c.toNat = 45 ∨ c.toNat = 46 ∨ c.toNat = 95) := by
  unfold isHostC isAlphaC isDigitC
  simp only [Bool.or_eq_true, Bool.and_eq_true, decide_eq_true_eq, beq_iff_eq]
  rw [char_eq_iff_toNat c '-', char_eq_iff_toNat c '.', char_eq_iff_toNat c '_']
  have h1 : ('-' : Char).toNat = 45 := rfl
  have h2 : ('.' : Char).toNat = 46 := rfl
  have h3 : ('_' : Char).toNat = 95 := rfl
  rw [h1, h2, h3]
  omega

theorem isPathC_iff (c : Char) :
    isPathC c = true ↔ ((65 ≤ c.toNat ∧ c.toNat ≤ 90) ∨ (97 ≤ c.toNat ∧ c.toNat ≤ 122) ∨
      (48 ≤ c.toNat ∧ c.toNat ≤ 57) ∨ c.toNat = 47 ∨ c.toNat = 46 ∨ c.toNat = 45 ∨
      c.toNat = 95 ∨ c.toNat = 126 ∨ c.toNat = 58 ∨ c.toNat = 44 ∨ c.toNat = 64) := by
  unfold isPathC isAlphaC isDigitC
  simp only [Bool.or_eq_true, Bool.and_eq_true, decide_eq_true_eq, beq_iff_eq]
  rw [char_eq_iff_toNat c '/', char_eq_iff_toNat c '.', char_eq_iff_toNat c '-',
    char_eq_iff_toNat c '_', char_eq_iff_toNat c '~', char_eq_iff_toNat c ':',
    char_eq_iff_toNat c ',', char_eq_iff_toNat c '@']
  have h1 : ('/' : Char).toNat = 47 := rfl
  have h2 : ('.' : Char).toNat = 46 := rfl
  have h3 : ('-' : Char).toNat = 45 := rfl
  have h4 : ('_' : Char).toNat = 95 := rfl
  have h5 : ('~' : Char).toNat = 126 := rfl
  have h6 : (':' : Char).toNat = 58 := rfl
  have h7 : (',' : Char).toNat = 44 := rfl
  have h8 : ('@' : Char).toNat = 64 := rfl
  rw [h1, h2, h3, h4, h5, h6, h7, h8]
  omega

theorem isSlashy_iff (c : Char) :
    isSlashy c = true ↔ c.toNat = 47 ∨ c.toNat = 92 := by
  unfold isSlashy
  simp only [Bool.or_eq_true, beq_iff_eq]
  rw [char_eq_iff_toNat c '/', char_eq_iff_toNat c '\\']
  have h1 : ('/' : Char).toNat = 47 := rfl
  have h2 : ('\\' : Char).toNat = 92 := rfl
  rw [h1, h2]

theorem notAuthEnd_iff (c : Char) :
    notAuthEnd c = true ↔ c.toNat ≠ 47 ∧ c.toNat ≠ 63 ∧ c.toNat ≠ 35 ∧ c.toNat ≠ 92 := by
  unfold notAuthEnd
  rw [Bool.and_eq_true, notSepC_iff]
  simp only [Bool.not_eq_true', beq_eq_false_iff_ne, ne_eq]
  rw [char_eq_iff_toNat c '\\']
  have h1 : ('\\' : Char).toNat = 92 := rfl
  rw [h1]
  omega

theorem isSchemeC_toLower (c : Char) :
    isSchemeC (Char.toLower c) = isSchemeC c := by
  rw [Bool.eq_iff_iff, isSchemeC_iff, isSchemeC_iff, char_toLower_toNat c]
  split_ifs <;> omega

theorem isHostC_toLower (c : Char) :
    isHostC (Char.toLower c) = isHostC c := by
  rw [Bool.eq_iff_iff, isHostC_iff, isHostC_iff, char_toLower_toNat c]
  split_ifs <;> omega

theorem isHostC_ne_colon (c : Char) (h : isHostC c = true) :
    decide (c ≠ ':') = true := by
  simp only [decide_eq_true_eq, ne_eq]
  intro heq
  rw [isHostC_iff] at h
  rw [heq] at h
  revert h
  decide

theorem isHostC_notAuthEnd (c : Char) (h : isHostC c = true) : notAuthEnd c = true := by
  rw [notAuthEnd_iff]
  rw [isHostC_iff] at h
  omega

theorem isHostC_not_slashy (c : Char) (h : isHostC c = true) : isSlashy c = false := by
  cases hs : isSlashy c
  · rfl
  · rw [isSlashy_iff] at hs
    rw [isHostC_iff] at h
    omega

theorem isDigitC_notAuthEnd (c : Char) (h : isDigitC c = true) : notAuthEnd c = true := by
  rw [notAuthEnd_iff]
  rw [isDigitC_iff] at h
  omega

theorem isPathC_notQH (c : Char) (h : isPathC c = true) : notQH c = true := by
  rw [notQH_iff]
  rw [isPathC_iff] at h
  omega

theorem dropWhile_prefix_stop {p : Char → Bool} {A : List Char} {b : Char} {B : List Char}
    (hA : ∀ a ∈ A, p a = true) (hb : p b = false) : (A ++ b :: B).dropWhile p = b :: B := by
  induction A with
  | nil =>
    rw [List.nil_append, List.dropWhile_cons_of_neg (by simp [hb])]
  | cons a A2 ih =>
    rw [List.cons_append, List.dropWhile_cons_of_pos (hA a (List.mem_cons_self a A2))]
    exact ih (fun x hx => hA x (List.mem_cons_of_mem a hx))

theorem drop_len_cons {α : Type} (A : List α) (b : α) (B : List α) :
    (A ++ b :: B).drop (A.length + 1) = B := by
  induction A with
  | nil => rfl
  | cons a A2 ih =>
    rw [List.cons_append, List.length_cons, List.drop_succ_cons]
    exact ih

theorem dropWhile_head_false {p : Char → Bool} {l : List Char} {c : Char} {t : List Char}
    (h : l.dropWhile p = c :: t) : p c = false := by
  induction l with
  | nil => exact absurd h (by simp)
  | cons a l2 ih =>
    rw [List.dropWhile_cons] at h
    split at h
    · exact ih h
    · rename_i hpa
      rw [List.cons.injEq] at h
      rw [← h.1]
      cases hq : p a
      · rfl
      · exact absurd hq hpa

theorem authParts_inv (auth host pd : List Char) (h : authParts auth = some (host, pd)) :
    host.all isHostC = true ∧ lowerL host = host ∧ pd.all isDigitC = true ∧
      digitsToNat pd < 65536 ∧ (pd = [] ∨ pd.head? ≠ some '0' ∨ pd = ['0']) := by
  rw [authParts] at h
  split at h
  · rename_i hcond
    rw [Option.some.injEq, Prod.mk.injEq] at h
    obtain ⟨hh, hpd⟩ := h
    simp only [Bool.and_eq_true, Bool.or_eq_true, decide_eq_true_eq] at hcond
    obtain ⟨⟨⟨hhost, hdig⟩, hval⟩, hzero⟩ := hcond
    subst hpd
    refine ⟨?_, ?_, hdig, hval, ?_⟩
    · rw [← hh]
      unfold lowerL
      rw [List.all_map]
      have hfun : isHostC ∘ Char.toLower = isHostC := funext (fun c => isHostC_toLower c)
      rw [hfun]
      exact hhost
    · rw [← hh]
      exact lowerL_idem _
    · tauto
  · exact Option.noConfusion h

theorem all_mem_of_all {p : Char → Bool} {l : List Char} (h : l.all p = true) :
    ∀ a ∈ l, p a = true := by
  rw [List.all_eq_true] at h
  exact h

theorem authParts_build_noport (host : List Char) (hh : host.all isHostC = true)
    (hlow : lowerL host = host) :
    authParts host = some (host, []) := by
  rw [authParts]
  have ht : host.takeWhile (fun c => decide (c ≠ ':')) = host :=
    takeWhile_all (fun a ha => isHostC_ne_colon a (all_mem_of_all hh a ha))
  rw [ht]
  have hd : host.drop (host.length + 1) = [] := List.drop_eq_nil_of_le (by omega)
  rw [hd]
  rw [if_pos (by simp [hh, digitsToNat])]
  rw [hlow]

theorem authParts_build_port (host pd : List Char) (hh : host.all isHostC = true)
    (hlow : lowerL host = host) (hdig : pd.all isDigitC = true)
    (hval : digitsToNat pd < 65536)
    (hz : pd = [] ∨ pd.head? ≠ some '0' ∨ pd = ['0']) :
    authParts (host ++ ':' :: pd) = some (host, pd) := by
  rw [authParts]
  have ht : (host ++ ':' :: pd).takeWhile (fun c => decide (c ≠ ':')) = host :=
    takeWhile_prefix_stop (fun a ha => isHostC_ne_colon a (all_mem_of_all hh a ha))
      (by simp)
  rw [ht, drop_len_cons]
  have hcond : (host.all isHostC && pd.all isDigitC && decide (digitsToNat pd < 65536) &&
      (decide (pd = []) || decide (pd.head? ≠ some '0') || decide (pd = ['0']))) = true := by
    simp only [Bool.and_eq_true, Bool.or_eq_true, decide_eq_true_eq]
    exact ⟨⟨⟨hh, hdig⟩, hval⟩, by tauto⟩
  rw [if_pos hcond, hlow]

theorem portSer_nil (sch : List Char) : portSer sch [] = [] := by
  rw [portSer, if_pos (Or.inl rfl)]

theorem splitScheme_build (c0 : Char) (tl after : List Char)
    (h0 : isAlphaC c0 = true) (ht : tl.all isSchemeC = true)
    (hlow : lowerL (c0 :: tl) = c0 :: tl) :
    splitScheme ((c0 :: tl) ++ ':' :: after) = some (c0 :: tl, after) := by
  rw [List.cons_append]
  rw [splitScheme]
  rw [if_pos h0]
  have h1 : (tl ++ ':' :: after).dropWhile isSchemeC = ':' :: after :=
    dropWhile_prefix_stop (fun a ha => all_mem_of_all ht a ha) (by decide)
  have h2 : (tl ++ ':' :: after).takeWhile isSchemeC = tl :=
    takeWhile_prefix_stop (fun a ha => all_mem_of_all ht a ha) (by decide)
  rw [h1, h2, hlow]
  rfl

theorem splitScheme_inv (s sch after : List Char)
    (h : splitScheme s = some (sch, after)) :
    ∃ c0 tl, sch = c0 :: tl ∧ isAlphaC c0 = true ∧ tl.all isSchemeC = true ∧
      lowerL sch = sch := by
  cases s with
  | nil => exact Option.noConfusion h
  | cons c rest =>
    rw [splitScheme] at h
    split at h
    · rename_i ha
      split at h
      · rename_i after2 heq
        rw [Option.some.injEq, Prod.mk.injEq] at h
        obtain ⟨hsch, hafter⟩ := h
        refine ⟨Char.toLower c, lowerL (rest.takeWhile isSchemeC), ?_, ?_, ?_, ?_⟩
        · rw [← hsch]
          rfl
        · rw [isAlphaC_toLower]
          exact ha
        · unfold lowerL
          rw [List.all_map]
          have hfun : isSchemeC ∘ Char.toLower = isSchemeC :=
            funext (fun x => isSchemeC_toLower x)
          rw [hfun]
          rw [List.all_eq_true]
          intro x hx
          exact List.mem_takeWhile_imp hx
        · rw [← hsch]
          exact lowerL_idem _
      · exact Option.noConfusion h
    · exact Option.noConfusion h

theorem parseSpecialHier_build (sch host pd pathn : List Char)
    (hne : host ≠ []) (hh : host.all isHostC = true) (hlow : lowerL host = host)
    (hdig : pd.all isDigitC = true) (hval : digitsToNat pd < 65536)
    (hz : pd = [] ∨ pd.head? ≠ some '0' ∨ pd = ['0'])
    (hpt : ∃ pt, pathn = '/' :: pt) (hpc : pathn.all isPathC = true)
    (hnd : noDotSeg pathn = true) :
    parseSpecialHier sch ('/' :: '/' :: (host ++ portSer sch pd ++ pathn)) =
      some ⟨sch ++ [':', '/', '/'] ++ host ++ portSer sch pd, pathn⟩ := by
  obtain ⟨pt, hptEq⟩ := hpt
  obtain ⟨h0, hr, hhostEq⟩ : ∃ h0 hr, host = h0 :: hr := by
    cases host with
    | nil => exact absurd rfl hne
    | cons a b => exact ⟨a, b, rfl⟩
  have hh0 : isHostC h0 = true :=
    all_mem_of_all hh h0 (by rw [hhostEq]; exact List.mem_cons_self h0 hr)
  have hns : ¬ isSlashy h0 = true := by
    rw [isHostC_not_slashy h0 hh0]
    simp
  have hnotEnd : ∀ a ∈ host, notAuthEnd a = true :=
    fun a ha => isHostC_notAuthEnd a (all_mem_of_all hh a ha)
  have hpathn : pathn.takeWhile notQH = pathn :=
    takeWhile_all (fun a ha => isPathC_notQH a (all_mem_of_all hpc a ha))
  have hpne : ¬ pathn = [] := by
    rw [hptEq]
    exact List.cons_ne_nil '/' pt
  by_cases hdef : pd = [] ∨ digitsToNat pd = defaultPort sch
  · have hps : portSer sch pd = [] := by rw [portSer, if_pos hdef]
    rw [hps]
    simp only [List.append_nil]
    rw [parseSpecialHier]
    have hrest : ('/' :: '/' :: (host ++ pathn)).dropWhile isSlashy = host ++ pathn := by
      rw [List.dropWhile_cons_of_pos (by decide), List.dropWhile_cons_of_pos (by decide)]
      rw [hhostEq, List.cons_append, List.dropWhile_cons_of_neg hns]
    rw [hrest]
    have hauth : (host ++ pathn).takeWhile notAuthEnd = host := by
      rw [hptEq]
      exact takeWhile_prefix_stop hnotEnd (by decide)
    have hdropA : (host ++ pathn).dropWhile notAuthEnd = pathn := by
      rw [hptEq]
      exact dropWhile_prefix_stop hnotEnd (by decide)
    rw [hauth, hdropA, hpathn]
    rw [authParts_build_noport host hh hlow, Option.some_bind]
    simp only []
    rw [if_pos ⟨hne, hpc, hnd⟩, portSer_nil]
    simp only [List.append_nil]
    rw [if_neg hpne]
  · have hps : portSer sch pd = ':' :: pd := by rw [portSer, if_neg hdef]
    rw [hps]
    rw [parseSpecialHier]
    have hAll : ∀ a ∈ host ++ ':' :: pd, notAuthEnd a = true := by
      intro a ha
      rcases List.mem_append.mp ha with h | h
      · exact hnotEnd a h
      · rcases List.mem_cons.mp h with h | h
        · rw [h]
          decide
        · exact isDigitC_notAuthEnd a (all_mem_of_all hdig a h)
    have hrest : ('/' :: '/' :: (host ++ (':' :: pd) ++ pathn)).dropWhile isSlashy =
        host ++ (':' :: pd) ++ pathn := by
      rw [List.dropWhile_cons_of_pos (by decide), List.dropWhile_cons_of_pos (by decide)]
      rw [hhostEq, List.cons_append, List.cons_append, List.dropWhile_cons_of_neg hns]
    rw [hrest]
    have hauth : (host ++ (':' :: pd) ++ pathn).takeWhile notAuthEnd = host ++ (':' :: pd) := by
      rw [hptEq]
      exact takeWhile_prefix_stop hAll (by decide)
    have hdropA : (host ++ (':' :: pd) ++ pathn).dropWhile notAuthEnd = pathn := by
      rw [hptEq]
      exact dropWhile_prefix_stop hAll (by decide)
    rw [hauth, hdropA, hpathn]
    rw [authParts_build_port host pd hh hlow hdig hval hz, Option.some_bind]
    simp only []
    rw [if_pos ⟨hne, hpc, hnd⟩, hps]
    rw [if_neg hpne]

theorem parseSpecialHier_inv (sch after : List Char) (u : UrlObj)
    (hp : parseSpecialHier sch after = some u) :
    ∃ host pd path,
      u = ⟨sch ++ [':', '/', '/'] ++ host ++ portSer sch pd,
           if path = [] then ['/'] else path⟩ ∧
      host ≠ [] ∧ host.all isHostC = true ∧ lowerL host = host ∧
      pd.all isDigitC = true ∧ digitsToNat pd < 65536 ∧
      (pd = [] ∨ pd.head? ≠ some '0' ∨ pd = ['0']) ∧
      path.all isPathC = true ∧ noDotSeg path = true ∧
      (path = [] ∨ ∃ pt, path = '/' :: pt) := by
  rw [parseSpecialHier] at hp
  rcases hauth : authParts ((after.dropWhile isSlashy).takeWhile notAuthEnd) with _ | ⟨host, pd⟩
  · rw [hauth, Option.none_bind] at hp
    exact Option.noConfusion hp
  · rw [hauth, Option.some_bind] at hp
    simp only [] at hp
    split at hp
    · rename_i hcond
      obtain ⟨hne, hall, hnd⟩ := hcond
      rw [Option.some.injEq] at hp
      obtain ⟨hhost, hlow, hdig, hval, hzero⟩ := authParts_inv _ host pd hauth
      refine ⟨host, pd, ((after.dropWhile isSlashy).dropWhile notAuthEnd).takeWhile notQH,
        hp.symm, hne, hhost, hlow, hdig, hval, hzero, hall, hnd, ?_⟩
      rcases hD : (after.dropWhile isSlashy).dropWhile notAuthEnd with _ | ⟨d0, D2⟩
      · left
        rfl
      · have hd0 : notAuthEnd d0 = false := dropWhile_head_false hD
        cases hq : notQH d0
        · left
          exact List.takeWhile_cons_of_neg (by simp [hq])
        · right
          have hpath2 : (d0 :: D2).takeWhile notQH = d0 :: D2.takeWhile notQH :=
            List.takeWhile_cons_of_pos hq
          have hpc0 : isPathC d0 = true := by
            rw [hD, hpath2] at hall
            exact all_mem_of_all hall d0 (List.mem_cons_self d0 _)
          have hd0slash : d0 = '/' := by
            apply char_eq_of_toNat_eq
            have h47 : ('/' : Char).toNat = 47 := rfl
            rw [h47]
            have hnot : ¬ notAuthEnd d0 = true := by
              rw [hd0]
              simp
            rw [notAuthEnd_iff] at hnot
            rw [notQH_iff] at hq
            rw [isPathC_iff] at hpc0
            omega
          refine ⟨D2.takeWhile notQH, ?_⟩
          rw [hpath2, hd0slash]
    · exact Option.noConfusion hp

theorem parseUrl_special (s sch after : List Char)
    (hsp : splitScheme s = some (sch, after))
    (hspec : specialSchemes.contains sch = true) :
    parseUrl s = parseSpecialHier sch after := by
  rw [parseUrl, hsp, Option.some_bind]
  simp only []
  have hfile : ¬ sch = "file".toList := by
    intro h
    rw [h] at hspec
    exact absurd hspec (by decide)
  rw [if_neg hfile, if_pos hspec]

/-- C9 (corrected): `normalizeUrl` never fails: when URL construction
throws it returns the input unchanged, and otherwise it returns
`origin + pathname`; on every input that parses as a special-scheme
hierarchical URL (`http`, `https`, `ws`, `wss`, `ftp`) it is idempotent.
It is not idempotent on every string: a `blob:` URL normalizes to its
inner origin followed by its whole opaque path, which re-parses
differently (see the counterexample). -/
theorem normalizeUrl_idem_special (s sch after : List Char) (u : UrlObj)
    (hsp : splitScheme s = some (sch, after))
    (hspec : specialSchemes.contains sch = true)
    (hph : parseSpecialHier sch after = some u) :
    normalizeUrl s = u.origin ++ u.pathname ∧
    normalizeUrl (normalizeUrl s) = normalizeUrl s ∧
    (∀ x, parseUrl x = none → normalizeUrl x = x) := by
  have hpu : parseUrl s = some u := by
    rw [parseUrl_special s sch after hsp hspec, hph]
  have h1 : normalizeUrl s = u.origin ++ u.pathname := by
    unfold normalizeUrl
    rw [hpu]
  obtain ⟨c0, tl, hsch, hc0, htl, hschlow⟩ := splitScheme_inv s sch after hsp
  obtain ⟨host, pd, path, hu, hne, hh, hlow, hdig, hval, hz, hpc, hnd, hshape⟩ :=
    parseSpecialHier_inv sch after u hph
  have hptn : ∃ pt, (if path = [] then ['/'] else path) = '/' :: pt := by
    rcases hshape with h | ⟨pt, h⟩
    · exact ⟨[], by rw [if_pos h]⟩
    · refine ⟨pt, ?_⟩
      rw [if_neg (by rw [h]; exact List.cons_ne_nil '/' pt), h]
  have hpcn : (if path = [] then ['/'] else path).all isPathC = true := by
    by_cases hpe : path = []
    · rw [if_pos hpe]
      decide
    · rw [if_neg hpe]
      exact hpc
  have hndn : noDotSeg (if path = [] then ['/'] else path) = true := by
    by_cases hpe : path = []
    · rw [if_pos hpe]
      decide
    · rw [if_neg hpe]
      exact hnd
  have hser : u.origin ++ u.pathname =
      (c0 :: tl) ++ ':' :: ('/' :: '/' ::
        (host ++ portSer sch pd ++ (if path = [] then ['/'] else path))) := by
    rw [hu, hsch]
    simp [List.append_assoc]
  have hsp2 : splitScheme (u.origin ++ u.pathname) =
      some (sch, '/' :: '/' ::
        (host ++ portSer sch pd ++ (if path = [] then ['/'] else path))) := by
    rw [hser]
    rw [splitScheme_build c0 tl _ hc0 htl (by rw [← hsch]; exact hschlow)]
    rw [← hsch]
  have hph2 : parseSpecialHier sch ('/' :: '/' ::
      (host ++ portSer sch pd ++ (if path = [] then ['/'] else path))) = some u := by
    rw [parseSpecialHier_build sch host pd (if path = [] then ['/'] else path)
      hne hh hlow hdig hval hz hptn hpcn hndn]
    rw [hu]
  have hpu2 : parseUrl (u.origin ++ u.pathname) = some u := by
    rw [parseUrl_special _ sch _ hsp2 hspec, hph2]
  refine ⟨h1, ?_, ?_⟩
  · rw [h1]
    unfold normalizeUrl
    rw [hpu2]
  · intro x hx
    unfold normalizeUrl
    rw [hx]

/-- C9 witness: a special-scheme URL with mixed case and an explicit
non-default port normalizes to lowercased `origin + pathname` and a second
normalization is the identity; an unparseable string is returned
unchanged. -/
theorem normalizeUrl_idem_special_witness :
    normalizeUrl "HTTP://Example.COM:8080/a/b.html".toList =
      "http://example.com:8080/a/b.html".toList ∧
    normalizeUrl (normalizeUrl "HTTP://Example.COM:8080/a/b.html".toList) =
      normalizeUrl "HTTP://Example.COM:8080/a/b.html".toList ∧
    normalizeUrl "not a url".toList = "not a url".toList := by
  have h := normalizeUrl_idem_special "HTTP://Example.COM:8080/a/b.html".toList
    "http".toList "//Example.COM:8080/a/b.html".toList
    ⟨"http://example.com:8080".toList, "/a/b.html".toList⟩
    (by decide) (by decide) (by decide)
  exact ⟨h.1.trans (by decide), h.2.1, h.2.2 "not a url".toList (by decide)⟩

/-- C9 counterexample: `normalizeUrl` is not idempotent.  The origin of a
`blob:` URL is the origin of its inner URL while its pathname is the whole
opaque path, so one normalization of `blob:https://ex.com/uuid` yields
`https://ex.comhttps://ex.com/uuid`; that re-parses as host `ex.comhttps`
(with an empty port) and path `//ex.com/uuid`, so a second normalization
yields the different string `https://ex.comhttps//ex.com/uuid`. -/
theorem normalizeUrl_blob_cex :
    normalizeUrl "blob:https://ex.com/uuid".toList =
      "https://ex.comhttps://ex.com/uuid".toList ∧
    normalizeUrl "https://ex.comhttps://ex.com/uuid".toList =
      "https://ex.comhttps//ex.com/uuid".toList ∧
    normalizeUrl (normalizeUrl "blob:https://ex.com/uuid".toList) ≠
      normalizeUrl "blob:https://ex.com/uuid".toList := by
  decide

/-! ## Claim C10: the restore pass -/

theorem countWrappersL_append (xs ys : List DNode) (i : String) :
    countWrappersL (xs ++ ys) i = countWrappersL xs i + countWrappersL ys i := by
  induction xs with
  | nil => simp [countWrappersL]
  | cons c rest ih =>
    rw [List.cons_append, countWrappersL, countWrappersL, ih]
    omega

theorem count_eq_parts (cs : List DNode) (k : Nat) (c : DNode) (i : String)
    (hk : cs[k]? = some c) :
    countWrappersL cs i =
      countWrappersL (cs.take k) i + countWrappers c i +
        countWrappersL (cs.drop (k + 1)) i := by
  have hlt : k < cs.length := (List.getElem?_eq_some_iff.mp hk).1
  have hc : cs[k] = c := (List.getElem?_eq_some_iff.mp hk).2
  have hdecomp : cs = cs.take k ++ c :: cs.drop (k + 1) := by
    conv_lhs => rw [← List.take_append_drop k cs]
    rw [List.drop_eq_getElem_cons hlt, hc]
  conv_lhs => rw [hdecomp]
  rw [countWrappersL_append, countWrappersL]
  omega

theorem countWrappersL_set (cs : List DNode) :
    ∀ (j : Nat) (c c' : DNode) (i : String), cs[j]? = some c →
      countWrappersL (cs.set j c') i + countWrappers c i =
        countWrappersL cs i + countWrappers c' i := by
  induction cs with
  | nil =>
    intro j c c' i hk
    exact absurd hk (by simp)
  | cons x rest ih =>
    intro j c c' i hk
    cases j with
    | zero =>
      simp only [List.getElem?_cons_zero, Option.some.injEq] at hk
      subst hk
      rw [List.set_cons_zero, countWrappersL, countWrappersL]
      omega
    | succ j2 =>
      simp only [List.getElem?_cons_succ] at hk
      rw [List.set_cons_succ, countWrappersL, countWrappersL]
      have := ih j2 c c' i hk
      omega

theorem spliceAt_elem_single (t : String) (a : Option String) (cs : List DNode)
    (j : Nat) (repl : List DNode) :
    spliceAt (.elem t a cs) [j] repl =
      if j < cs.length then some (.elem t a (cs.take j ++ repl ++ cs.drop (j + 1)))
      else none := by
  simp [spliceAt]

theorem spliceAt_elem_cons (t : String) (a : Option String) (cs : List DNode)
    (j j2 : Nat) (rest : List Nat) (repl : List DNode) (c : DNode)
    (hk : cs[j]? = some c) :
    spliceAt (.elem t a cs) (j :: j2 :: rest) repl =
      (spliceAt c (j2 :: rest) repl).map (fun c' => .elem t a (cs.set j c')) := by
  simp [spliceAt, hk]

theorem nodeAt_nil (n : DNode) : nodeAt n [] = some n := rfl

theorem nodeAt_elem_cons (t : String) (a : Option String) (cs : List DNode)
    (j : Nat) (rest : List Nat) (c : DNode) (hk : cs[j]? = some c) :
    nodeAt (.elem t a cs) (j :: rest) = nodeAt c rest := by
  simp [nodeAt, hk]

theorem nodeAt_elem_cons_none (t : String) (a : Option String) (cs : List DNode)
    (j : Nat) (rest : List Nat) (hk : cs[j]? = none) :
    nodeAt (.elem t a cs) (j :: rest) = none := by
  simp [nodeAt, hk]

/-- Splicing a replacement list in place of the node at `p` exchanges that
node's wrapper count for the replacement's. -/
theorem countWrappers_spliceAt (p : List Nat) :
    ∀ (n : DNode) (repl : List DNode) (m d' : DNode) (i : String),
      nodeAt n p = some m → spliceAt n p repl = some d' →
      countWrappers d' i + countWrappers m i =
        countWrappers n i + countWrappersL repl i := by
  induction p with
  | nil =>
    intro n repl m d' i _ hs
    exact absurd hs (by simp [spliceAt])
  | cons j rest ih =>
    intro n repl m d' i hn hs
    cases n with
    | text s =>
      cases rest with
      | nil => exact absurd hs (by simp [spliceAt])
      | cons j2 rest2 => exact absurd hs (by simp [spliceAt])
    | elem t a cs =>
      rcases hk : cs[j]? with _ | c
      · rw [nodeAt_elem_cons_none t a cs j rest hk] at hn
        exact absurd hn (by simp)
      · rw [nodeAt_elem_cons t a cs j rest c hk] at hn
        cases rest with
        | nil =>
          rw [nodeAt_nil, Option.some.injEq] at hn
          subst hn
          rw [spliceAt_elem_single] at hs
          split at hs
          · rw [Option.some.injEq] at hs
            subst hs
            rw [countWrappers, countWrappers, countWrappersL_append,
              countWrappersL_append, count_eq_parts cs j c i hk]
            omega
          · exact absurd hs (by simp)
        | cons j2 rest2 =>
          rw [spliceAt_elem_cons t a cs j j2 rest2 repl c hk] at hs
          rcases hsp : spliceAt c (j2 :: rest2) repl with _ | c'
          · rw [hsp] at hs
            exact absurd hs (by simp)
          · rw [hsp] at hs
            simp only [Option.map_some'] at hs
            rw [Option.some.injEq] at hs
            subst hs
            have hrec := ih c repl m c' i hn hsp
            have hset := countWrappersL_set cs j c c' i hk
            rw [countWrappers, countWrappers]
            omega

/-- The wrapper count after a successful wrap: one more marker for the
item's id, untouched counts for every other id. -/
theorem countWrappers_apply (doc d' : DNode) (loc : RLoc) (item : Item) (i : String)
    (h : applyHighlightToTextNode doc loc item = some d') :
    countWrappers d' i = countWrappers doc i + (if item.id = i then 1 else 0) := by
  unfold applyHighlightToTextNode at h
  split at h
  · rename_i s hnode
    split at h
    · have hcount := countWrappers_spliceAt loc.path doc _ _ d' i hnode h
      have hrepl : countWrappersL [DNode.text (s.take loc.first),
          DNode.elem "span" (some item.id) [DNode.text (slice s loc.first loc.stop)],
          DNode.text (s.drop loc.stop)] i = if item.id = i then 1 else 0 := by
        simp only [countWrappersL, countWrappers]
        by_cases hid : item.id = i <;> simp [hid]
      rw [hrepl] at hcount
      simp only [countWrappers] at hcount
      omega
    · exact absurd h (by simp)
  · exact absurd h (by simp)

theorem restoreOne_of_hasWrapper (doc : DNode) (item : Item)
    (h : hasWrapper doc item.id = true) : restoreOne doc item = doc := by
  unfold restoreOne
  rw [if_pos h]

theorem restoreOne_count_le_one (doc : DNode) (item : Item) (i : String)
    (h : countWrappers doc i ≤ 1) :
    countWrappers (restoreOne doc item) i ≤ 1 := by
  unfold restoreOne
  split
  · exact h
  · rename_i hw
    split
    · rename_i loc hloc
      split
      · rename_i d hd
        rw [countWrappers_apply doc d loc item i hd]
        by_cases hid : item.id = i
        · have h0 : countWrappers doc item.id = 0 := by
            unfold hasWrapper at hw
            simp only [decide_eq_true_eq] at hw
            omega
          rw [if_pos hid]
          rw [hid] at h0
          omega
        · rw [if_neg hid]
          omega
      · exact h
    · exact h

theorem restorePass_count_le_one (items : List Item) (doc : DNode) (i : String)
    (h : countWrappers doc i ≤ 1) :
    countWrappers (restorePass doc items) i ≤ 1 := by
  unfold restorePass
  induction items generalizing doc with
  | nil => exact h
  | cons it rest ih =>
    rw [List.foldl_cons]
    exact ih (restoreOne doc it) (restoreOne_count_le_one doc it i h)

/-- C10: restoration is idempotent per anchor id within one document
session: an anchor whose id already has a live marker is skipped unchanged
by the restore step, and however many times the restore pass runs over the
same anchor list, a document that starts with at most one marker for an id
keeps at most one marker for that id — no anchor is ever double-wrapped. -/
theorem restore_idempotent_per_id (items : List Item) (doc : DNode) (item : Item)
    (h : countWrappers doc item.id ≤ 1) (n : Nat) :
    countWrappers ((fun d => restorePass d items)^[n] doc) item.id ≤ 1 ∧
    (hasWrapper doc item.id = true → restoreOne doc item = doc) := by
  constructor
  · induction n generalizing doc with
    | zero => exact h
    | succ n2 ih =>
      rw [Function.iterate_succ_apply]
      exact ih (restorePass doc items) (restorePass_count_le_one items doc item.id h)
  · exact fun hw => restoreOne_of_hasWrapper doc item hw

def c10doc : DNode := .elem "body" none [.elem "p" none [.text "hello world".toList]]

def c10item : Item :=
  { id := "hl-w", quote := "world".toList, pre := "hello ".toList, suf := [],
    xpath := ⟨[("p", 1)], 1⟩, startOffset := 6, endOffset := 11,
    color := "#FFEB3B", note := [], tags := [], createdAt := 0 }

/-- C10 witness: two full restore passes over a one-anchor list leave at
most one marker, and the second pass's step on the already-wrapped document
is the identity. -/
theorem restore_idempotent_per_id_witness :
    countWrappers c10doc "hl-w" ≤ 1 ∧
    countWrappers ((fun d => restorePass d [c10item])^[2] c10doc) "hl-w" ≤ 1 ∧
    hasWrapper (restorePass c10doc [c10item]) "hl-w" = true ∧
    restoreOne (restorePass c10doc [c10item]) c10item = restorePass c10doc [c10item] :=
  ⟨by decide,
   (restore_idempotent_per_id [c10item] c10doc c10item (by decide) 2).1,
   by decide,
   (restore_idempotent_per_id [c10item] (restorePass c10doc [c10item]) c10item
     (by decide) 0).2 (by decide)⟩


/-! ## Claim C6: wrap / unwrap round trip -/

theorem textContentL_append (xs ys : List DNode) :
    textContentL (xs ++ ys) = textContentL xs ++ textContentL ys := by
  induction xs with
  | nil => simp [textContentL]
  | cons c rest ih =>
    rw [List.cons_append, textContentL, textContentL, ih, List.append_assoc]

theorem take_slice_drop (s : List Char) (a b : Nat) (hab : a ≤ b) (_hb : b ≤ s.length) :
    s.take a ++ slice s a b ++ s.drop b = s := by
  unfold slice
  rw [show s.take a = (s.take b).take a by rw [List.take_take, Nat.min_eq_left hab]]
  rw [List.take_append_drop, List.take_append_drop]

/-- The (top-level) head of a sibling list is not a text node. -/
def headNotText : List DNode → Prop
  | .text _ :: _ => False
  | _ => True

/-- No empty text nodes and no two adjacent text nodes among the immediate
children — what `normalize()` guarantees at each level. -/
def NoAdjacentTexts : List DNode → Prop
  | [] => True
  | .text s :: rest => s ≠ [] ∧ headNotText rest ∧ NoAdjacentTexts rest
  | .elem _ _ _ :: rest => NoAdjacentTexts rest

/-- `normalize()` does not change the concatenated text. -/
theorem normalize_textContent :
    (∀ n, textContent (normalizeNode n) = textContent n) ∧
    (∀ cs, textContentL (normChildren cs) = textContentL cs) := by
  refine DNode.indPair (fun n => textContent (normalizeNode n) = textContent n)
    (fun cs => textContentL (normChildren cs) = textContentL cs) ?_ ?_ ?_ ?_
  · intro s
    rfl
  · intro t a cs hq
    rw [normalizeNode, textContent, textContent]
    exact hq
  · simp [normChildren]
  · intro c cs hp hq
    cases c with
    | text s =>
      rw [normChildren]
      rcases h : normChildren cs with _ | ⟨c2, r⟩
      · rw [h] at hq
        simp only [textContentL] at hq
        split
        · rename_i s2 r2 heq
          exact absurd heq (by simp)
        · split
          · rename_i hs
            rw [textContentL, hs]
            simpa using hq.symm
          · rw [textContentL, textContentL, hq]
            simp [textContentL]
      · rw [h] at hq
        cases c2 with
        | text s2 =>
          rw [textContentL] at hq
          split
          · rename_i s2' r2 heq
            rw [List.cons.injEq, DNode.text.injEq] at heq
            rcases heq with ⟨h1, h2⟩
            subst h1
            subst h2
            split
            · rename_i hnil
              rcases List.append_eq_nil.mp hnil with ⟨hs1, hs2⟩
              rw [textContentL, hs1]
              rw [hs2] at hq
              simpa using hq
            · simp only [textContentL, textContent] at hq ⊢
              rw [List.append_assoc, hq]
          · rename_i hne
            exact absurd rfl (hne s2 r)
        | elem t2 a2 cs2 =>
          split
          · rename_i s2' r2 heq
            exact absurd heq (by simp)
          · rw [textContentL] at hq
            split
            · rename_i hs
              rw [textContentL, hs]
              simpa using hq
            · simp only [textContentL, textContent] at hq ⊢
              rw [hq]
    | elem t a cs2 =>
      rw [normChildren, textContentL, textContentL, hq]
      have : textContent (DNode.elem t a (normChildren cs2)) =
          textContent (DNode.elem t a cs2) := hp
      rw [this]

/-- `normalize()` leaves no empty text child and no two adjacent text
children. -/
theorem noAdjacentTexts_normChildren (cs : List DNode) :
    NoAdjacentTexts (normChildren cs) := by
  induction cs with
  | nil => simp [normChildren, NoAdjacentTexts]
  | cons c rest ih =>
    cases c with
    | text s =>
      rw [normChildren]
      rcases h : normChildren rest with _ | ⟨c2, r⟩
      · split
        · rename_i s2 r2 heq
          exact absurd heq (by simp)
        · split
          · simp [NoAdjacentTexts]
          · rename_i hs
            exact ⟨hs, trivial, trivial⟩
      · rw [h] at ih
        cases c2 with
        | text s2 =>
          rw [NoAdjacentTexts] at ih
          split
          · rename_i s2' r2 heq
            rw [List.cons.injEq, DNode.text.injEq] at heq
            rcases heq with ⟨h1, h2⟩
            subst h1
            subst h2
            split
            · exact ih.2.2
            · rename_i hne
              exact ⟨hne, ih.2.1, ih.2.2⟩
          · rename_i hne
            exact absurd rfl (hne s2 r)
        | elem t2 a2 cs2 =>
          split
          · rename_i s2' r2 heq
            exact absurd heq (by simp)
          · split
            · exact ih
            · rename_i hs
              exact ⟨hs, trivial, ih⟩
    | elem t a cs2 =>
      rw [normChildren]
      show NoAdjacentTexts (DNode.elem t a (normChildren cs2) :: normChildren rest)
      rw [NoAdjacentTexts]
      exact ih


/-- A document with no marker for `i` has no `querySelector` hit for `i`. -/
theorem findWrapper_none_of_count0 (i : String) :
    (∀ n, countWrappers n i = 0 → findWrapper n i = none) ∧
    (∀ cs, countWrappersL cs i = 0 → findWrapperL cs i = none) := by
  refine DNode.indPair (fun n => countWrappers n i = 0 → findWrapper n i = none)
    (fun cs => countWrappersL cs i = 0 → findWrapperL cs i = none) ?_ ?_ ?_ ?_
  · intro s _
    rfl
  · intro t a cs hq hc
    rw [countWrappers] at hc
    have ha : ¬ a = some i := by
      intro h
      rw [if_pos h] at hc
      omega
    rw [findWrapper, if_neg ha, hq (by omega)]
    rfl
  · intro _
    rfl
  · intro c cs hp hq hc
    rw [countWrappersL] at hc
    rw [findWrapperL, hp (by omega), hq (by omega)]
    rfl

theorem findWrapperL_append (xs ys : List DNode) (i : String) (h : findWrapperL xs i = none) :
    findWrapperL (xs ++ ys) i = (findWrapperL ys i).map (fun kp => (kp.1 + xs.length, kp.2)) := by
  induction xs with
  | nil =>
    simp only [List.nil_append, List.length_nil]
    cases hy : findWrapperL ys i with
    | none => simp [hy]
    | some kp => simp [hy]
  | cons c rest ih =>
    rw [findWrapperL] at h
    rw [List.cons_append, findWrapperL]
    cases hc : findWrapper c i with
    | some p =>
      rw [hc] at h
      exact absurd h (by simp)
    | none =>
      rw [hc] at h
      have h2 : Option.map (fun kp => (kp.1 + 1, kp.2)) (findWrapperL rest i) = none := h
      have hrest : findWrapperL rest i = none := by
        cases hr : findWrapperL rest i with
        | none => rfl
        | some kp =>
          rw [hr] at h2
          exact absurd h2 (by simp)
      have hgoal : Option.map (fun kp => (kp.1 + 1, kp.2)) (findWrapperL (rest ++ ys) i) =
          Option.map (fun kp => (kp.1 + (c :: rest).length, kp.2)) (findWrapperL ys i) := by
        rw [ih hrest]
        cases hy : findWrapperL ys i with
        | none => simp
        | some kp =>
          simp only [Option.map_some, List.length_cons]
          have harith : kp.1 + rest.length + 1 = kp.1 + (rest.length + 1) := by omega
          simp [harith]
      exact hgoal

theorem mid3_length (A R : List DNode) (x1 x2 x3 : DNode) :
    A.length + 1 < (A ++ x1 :: x2 :: x3 :: R).length := by
  simp only [List.length_append, List.length_cons]
  omega

theorem mid3_getElem (A R : List DNode) (x1 x2 x3 : DNode) :
    (A ++ x1 :: x2 :: x3 :: R)[A.length + 1]? = some x2 := by
  induction A with
  | nil => rfl
  | cons c rest ih => simpa using ih

theorem mid3_take (A R : List DNode) (x1 x2 x3 : DNode) :
    (A ++ x1 :: x2 :: x3 :: R).take (A.length + 1) = A ++ [x1] := by
  induction A with
  | nil => rfl
  | cons c rest ih => simpa using ih

theorem mid3_drop (A R : List DNode) (x1 x2 x3 : DNode) :
    (A ++ x1 :: x2 :: x3 :: R).drop (A.length + 2) = x3 :: R := by
  induction A with
  | nil => rfl
  | cons c rest ih =>
    rw [List.cons_append, List.length_cons]
    exact ih


theorem removeHighlightSpan_eq (doc : DNode) (i : String) (p : List Nat)
    (tg : String) (aa : Option String) (sc : List DNode)
    (hf : findWrapper doc i = some p) (hn : nodeAt doc p = some (.elem tg aa sc)) :
    removeHighlightSpan doc i =
      (spliceAt doc p sc).bind (fun d => updateAt d p.dropLast normalizeNode) := by
  simp only [removeHighlightSpan, hf, hn]

/-- C6: applying a highlight over a range inside a text child of an element
that carries no marker for the anchor's id, then removing that marker,
succeeds and yields the same element whose concatenated text content is
byte-identical to the original, with no empty and no two adjacent text
children (the unwrap splices the span's children in place and the parent is
normalized). -/
theorem wrap_unwrap_roundtrip (t : String) (a : Option String) (cs : List DNode)
    (k : Nat) (s : List Char) (item : Item) (st en : Nat)
    (hk : cs[k]? = some (.text s)) (hse : st ≤ en) (hen : en ≤ s.length)
    (hfresh : countWrappers (.elem t a cs) item.id = 0) :
    ∃ d1 d2,
      applyHighlightToTextNode (.elem t a cs) ⟨[k], st, en⟩ item = some d1 ∧
      removeHighlightSpan d1 item.id = some d2 ∧
      textContent d2 = textContent (.elem t a cs) ∧
      ∃ cs2, d2 = .elem t a cs2 ∧ NoAdjacentTexts cs2 := by
  have hklen : k < cs.length := by
    rcases List.getElem?_eq_some_iff.mp hk with ⟨h, _⟩
    exact h
  set t1 : DNode := .text (s.take st) with ht1
  set mid : DNode := .text (slice s st en) with hmid
  set span : DNode := .elem "span" (some item.id) [mid] with hspan
  set t2 : DNode := .text (s.drop en) with ht2
  set A : List DNode := cs.take k with hA
  set R : List DNode := cs.drop (k + 1) with hR
  have hAlen : A.length = k := by
    rw [hA, List.length_take]
    omega
  set L : List DNode := A ++ t1 :: span :: t2 :: R with hL
  set d1 : DNode := .elem t a L with hd1
  -- step 1: the wrap succeeds and splits the text child around a fresh span
  have hnode : nodeAt (.elem t a cs) [k] = some (.text s) := by
    rw [nodeAt_elem_cons t a cs k [] _ hk]
    rfl
  have happ : applyHighlightToTextNode (.elem t a cs) ⟨[k], st, en⟩ item = some d1 := by
    simp only [applyHighlightToTextNode, hnode]
    rw [if_pos (⟨hse, hen⟩ : st ≤ en ∧ en ≤ s.length)]
    rw [spliceAt_elem_single, if_pos hklen]
    rw [hd1, hL, hA, hR, ht1, hspan, ht2, hmid]
    simp
  -- freshness propagates to the pieces of the child list
  have ha : ¬ a = some item.id := by
    intro h
    rw [countWrappers, if_pos h] at hfresh
    omega
  have hcsL : countWrappersL cs item.id = 0 := by
    rw [countWrappers, if_neg ha] at hfresh
    omega
  have hparts := count_eq_parts cs k (.text s) item.id hk
  rw [hcsL] at hparts
  simp only [countWrappers] at hparts
  have hA0 : countWrappersL A item.id = 0 := by rw [hA]; omega
  have hfwA : findWrapperL A item.id = none :=
    (findWrapper_none_of_count0 item.id).2 A hA0
  -- step 2: querySelector finds exactly the fresh span
  have hfw1 : findWrapperL (t1 :: span :: t2 :: R) item.id = some (1, []) := by
    rw [ht1, hspan, ht2]
    simp [findWrapperL, findWrapper]
  have hfwL : findWrapperL L item.id = some (A.length + 1, []) := by
    rw [hL, findWrapperL_append A _ _ hfwA, hfw1]
    simp [Nat.add_comm]
  have hfwd1 : findWrapper d1 item.id = some [A.length + 1] := by
    rw [hd1, findWrapper, if_neg ha, hfwL]
    rfl
  have hL1 : L[A.length + 1]? = some span := by
    rw [hL]
    exact mid3_getElem A R t1 span t2
  have hnode1 : nodeAt d1 [A.length + 1] = some span := by
    rw [hd1, nodeAt_elem_cons t a L _ [] _ hL1]
    rfl
  set M : List DNode := A ++ t1 :: mid :: t2 :: R with hM
  have hsplice : spliceAt d1 [A.length + 1] [mid] = some (.elem t a M) := by
    rw [hd1, spliceAt_elem_single, if_pos (by rw [hL]; exact mid3_length A R t1 span t2)]
    rw [hL]
    rw [mid3_take A R t1 span t2, mid3_drop A R t1 span t2]
    rw [hM]
    simp
  set d2 : DNode := .elem t a (normChildren M) with hd2
  have hrem : removeHighlightSpan d1 item.id = some d2 := by
    rw [removeHighlightSpan_eq d1 item.id [A.length + 1] "span" (some item.id) [mid] hfwd1
      (by rw [hnode1, hspan])]
    rw [hsplice]
    rfl
  refine ⟨d1, d2, happ, hrem, ?_, normChildren M, rfl, noAdjacentTexts_normChildren M⟩
  -- the round trip preserves the concatenated text
  have hcs : cs = A ++ DNode.text s :: R := by
    rw [hA, hR]
    conv_lhs => rw [← List.take_append_drop k cs]
    rw [List.drop_eq_getElem_cons hklen]
    rcases List.getElem?_eq_some_iff.mp hk with ⟨h, hg⟩
    rw [hg]
  rw [hd2, textContent, textContent, hcs, (normalize_textContent).2 M, hM]
  rw [textContentL_append, textContentL_append]
  simp only [textContentL, textContent, ht1, hmid, ht2]
  have hassoc : List.take st s ++ (slice s st en ++ (List.drop en s ++ textContentL R)) =
      (List.take st s ++ slice s st en ++ List.drop en s) ++ textContentL R := by
    simp [List.append_assoc]
  have hinner : List.take st s ++ (slice s st en ++ (List.drop en s ++ textContentL R)) =
      s ++ textContentL R := by
    rw [hassoc, take_slice_drop s st en hse hen]
  rw [hinner]


def c6doc : DNode := .elem "div" none [.text "hello world".toList]

def c6item : Item :=
  { id := "hl-c6", quote := "world".toList, pre := "hello ".toList, suf := [],
    xpath := ⟨[], 1⟩, startOffset := 6, endOffset := 11,
    color := "#FFEB3B", note := [], tags := [], createdAt := 0 }

/-- C6 witness: wrapping characters 6..11 of a one-text-child div and then
removing the marker succeeds and restores the concatenated text. -/
theorem wrap_unwrap_roundtrip_witness :
    ∃ d1 d2,
      applyHighlightToTextNode c6doc ⟨[0], 6, 11⟩ c6item = some d1 ∧
      removeHighlightSpan d1 c6item.id = some d2 ∧
      textContent d2 = textContent c6doc ∧
      ∃ cs2, d2 = .elem "div" none cs2 ∧ NoAdjacentTexts cs2 :=
  wrap_unwrap_roundtrip "div" none [.text "hello world".toList] 0 "hello world".toList
    c6item 6 11 rfl (by decide) (by decide) (by decide)

end Highlighter
